import Mathlib

/-!
# AWS request signing (`service/aws.cc`)

A shallow embedding of the request-signing code of `service/aws.cc`
(`AwsApi::uriEncode`, `AwsApi::encodeDigest`, `AwsApi::hexEncodeDigest`,
`AwsApi::signingKeyV4`, `AwsApi::signV4`, `AwsApi::addSignatureV4`) and of the
handler registry of `service/fs_utils.cc` (`registerUrlFsHandler`,
`findFsHandler`), together with the properties of them that are stated in the
specification.

Conventions of the embedding:

* a `std::string` is a list of bytes (`Str`), a byte is a `Fin 256`;
* `RestParams` (`std::vector<std::pair<std::string, std::string>>`) is a list
  of pairs of strings;
* the hash primitives of Crypto++ (`SHA256`, `HMAC<SHA256>`) are not part of
  the program: they are fields of a `Platform` record and every theorem holds
  for all of them;
* whether the plain `char` of the compiler is signed is a field of the same
  record (`charSigned`); it is `true` for the x86-64 Linux ABI the library is
  built for;
* a C++ exception (`std::out_of_range` of `std::string::erase`) is the value
  `none` of an `Option`; the `ML::Exception` of the registry functions is the
  `error` of an `Except`, returned with the registry after the call.
-/

namespace Datacratic

/-! ## Strings -/

/-- One byte of a `std::string`. -/
abbrev Byte := Fin 256

/-- A `std::string`: a sequence of bytes. -/
abbrev Str := List Byte

/-- `RestParams`: a vector of (key, value) pairs of strings. -/
abbrev RestParams := List (Str × Str)

/-- The bytes of an ASCII string literal of the source. -/
def lit (s : String) : Str := s.toList.map (fun c => Fin.ofNat c.toNat)

/-- The string literal holding a line feed. -/
def newline : Str := [10]

/-- The value of a `char` holding the byte `b`, as the `int` it is promoted to:
on a platform with a signed `char` the bytes `0x80..0xFF` are negative. -/
def charValue (charSigned : Bool) (b : Byte) : Int :=
  if charSigned && 128 ≤ b.val then (b.val : Int) - 256 else (b.val : Int)

/-- The uppercase hexadecimal digit of a value below 16 (`0-9`, `A-F`). -/
def hexDigitUpper (d : Nat) : Byte :=
  if d < 10 then Fin.ofNat (48 + d) else Fin.ofNat (55 + d)

/-- `ML::format("%%%02X", c)`: a percent sign, then the `int` argument read as
a 32-bit `unsigned int` and printed in uppercase hexadecimal, with as many
digits as the value needs and at least two (zero-padded). -/
def formatPercent02X (c : Int) : Str :=
  let u : Nat := (c % 4294967296).toNat
  let digits : List Nat :=
    [u / 268435456 % 16, u / 16777216 % 16, u / 1048576 % 16, u / 65536 % 16,
     u / 4096 % 16, u / 256 % 16, u / 16 % 16, u % 16]
  let significant := digits.dropWhile (fun d => d == 0)
  let padded := List.replicate (2 - significant.length) 0 ++ significant
  (37 : Byte) :: padded.map hexDigitUpper

/-- `tolower` in the classic locale: `A-Z` become `a-z`, every other byte is
kept. -/
def tolower (b : Byte) : Byte :=
  if 65 ≤ b.val ∧ b.val ≤ 90 then Fin.ofNat (b.val + 32) else b

/-- `ML::lowercase`: `tolower` applied to every character. -/
def lowercase (str : Str) : Str := str.map tolower

/-- `boost::is_space()` in the classic locale: space, `\t`, `\n`, `\v`, `\f`,
`\r`. -/
def isSpace (b : Byte) : Bool := b.val == 32 || (9 ≤ b.val && b.val ≤ 13)

/-- `boost::trim_right`. -/
def trimRight (s : Str) : Str := (s.reverse.dropWhile isSpace).reverse

/-- `boost::trim_left`. -/
def trimLeft (s : Str) : Str := s.dropWhile isSpace

/-- `boost::trim`: `trim_right` followed by `trim_left`. -/
def trim (s : Str) : Str := trimLeft (trimRight s)

/-- `s.erase(s.size() - k)`: removes the last `k` characters. When the string
has fewer than `k` characters the `size_t` subtraction wraps around to a
position beyond the end and `erase` throws `std::out_of_range`. -/
def eraseTail (s : Str) (k : Nat) : Option Str :=
  if k ≤ s.length then some (s.take (s.length - k)) else none

/-! ## Ordering of strings and pairs, `std::sort` -/

/-- `operator<` of `std::string`: lexicographic comparison of the bytes as
unsigned values, a proper prefix being smaller. -/
def strLt : Str → Str → Bool
  | _, [] => false
  | [], _ :: _ => true
  | a :: as, b :: bs => decide (a < b) || (decide (a = b) && strLt as bs)

/-- `operator<` of `std::pair`: `x.first < y.first ||
(!(y.first < x.first) && x.second < y.second)`. -/
def pairLt (x y : Str × Str) : Bool :=
  strLt x.1 y.1 || (!strLt y.1 x.1 && strLt x.2 y.2)

/-- The order `std::sort` leaves two neighbours in: the second is not smaller
than the first. -/
def pairLe (x y : Str × Str) : Prop := pairLt y x = false

instance pairLe.decidable : DecidableRel pairLe := fun x y =>
  inferInstanceAs (Decidable (pairLt y x = false))

/-- `std::sort(v.begin(), v.end())` on a vector of pairs. The comparison is a
strict total order in which equivalent pairs are equal, so the result is the
one sorted arrangement of the elements whatever algorithm computes it (see
`sortParams_unique`); it is computed here by insertion. -/
def sortParams (v : RestParams) : RestParams := v.insertionSort pairLe

/-! ## `AwsApi::uriEncode` -/

/-- The `case` labels of the `switch` in `uriEncode`:
`! # $ & ' ( ) * + , / : ; = ? @ [ ] %`. -/
def switchCases : List Int :=
  [33, 35, 36, 38, 39, 40, 41, 42, 43, 44, 47, 58, 59, 61, 63, 64, 91, 93, 37]

/-- What one iteration of the loop of `uriEncode` appends to `result` for the
character `c` holding the byte `b`. -/
def uriEncodeChar (charSigned : Bool) (b : Byte) : Str :=
  let c := charValue charSigned b
  if c ≤ 32 ∨ c ≥ 127 then formatPercent02X c
  else if c ∈ switchCases then formatPercent02X c
  else [b]

/-- `AwsApi::uriEncode`. -/
def uriEncode (charSigned : Bool) (str : Str) : Str :=
  str.foldl (fun result b => result ++ uriEncodeChar charSigned b) []

/-! ## Digests -/

/-- What the program takes from its platform: the signedness of `char` and
the Crypto++ hash primitives. -/
structure Platform where
  /-- Whether plain `char` is a signed type. -/
  charSigned : Bool
  /-- `CryptoPP::HMAC<CryptoPP::SHA256>(key).CalculateDigest(data)`. -/
  hmacSha256 : (key : Str) → (data : Str) → Str
  /-- `CryptoPP::SHA256().CalculateDigest(data)`. -/
  sha256 : (data : Str) → Str

/-- `AwsApi::hmacSha256Digest`: the HMAC keyed with `accessKey` of
`stringToSign`. -/
def hmacSha256Digest (P : Platform) (stringToSign accessKey : Str) : Str :=
  P.hmacSha256 accessKey stringToSign

/-- `AwsApi::sha256Digest`. -/
def sha256Digest (P : Platform) (stringToSign : Str) : Str :=
  P.sha256 stringToSign

/-- `CryptoPP::HexEncoder` with its default parameters: two uppercase
hexadecimal digits per byte, no separators. -/
def hexEncoder (digest : Str) : Str :=
  digest.flatMap (fun b => [hexDigitUpper (b.val / 16), hexDigitUpper (b.val % 16)])

/-- `AwsApi::encodeDigest<Encoder>`: the encoder's output is fetched into the
256-byte `outBuf`, so at most 256 characters of it are returned. (When 256
characters are fetched the terminating `outBuf[got] = 0` is written one past
the end of the buffer; the returned string is the 256 characters.) -/
def encodeDigest (encoder : Str → Str) (digest : Str) : Str :=
  (encoder digest).take 256

/-- `AwsApi::hexEncodeDigest`. -/
def hexEncodeDigest (digest : Str) : Str :=
  lowercase (encodeDigest hexEncoder digest)

/-! ## `AwsApi::signingKeyV4`, `AwsApi::signV4` -/

/-- `AwsApi::signingKeyV4`. -/
def signingKeyV4 (P : Platform) (accessKey date region service signing : Str) : Str :=
  let hmac := fun (key data : Str) => hmacSha256Digest P data key
  hmac (hmac (hmac (hmac (lit "AWS4" ++ accessKey) date) region) service) signing

/-- `AwsApi::signV4`. -/
def signV4 (P : Platform) (stringToSign accessKey date region service signing : Str) : Str :=
  let signingKey := signingKeyV4 P accessKey date region service signing
  hexEncodeDigest (hmacSha256Digest P stringToSign signingKey)

/-- Modelled from the spec: the default argument of the parameter `signing` of
`signV4` and `signingKeyV4`, declared in `aws.h` (the spec's
`terminator="aws4_request"`). -/
def defaultSigning : Str := lit "aws4_request"

/-! ## `AwsApi::addSignatureV4` -/

/-- `BasicRequest`: the fields of the request that `addSignatureV4` uses. -/
structure BasicRequest where
  method : Str
  relativeUri : Str
  queryParams : RestParams
  headers : RestParams
  payload : Str
deriving DecidableEq

/-- The block of `addSignatureV4` that computes `canonicalHeaders` and
`signedHeaders` (in this order in the result) from `request.headers`. -/
def canonicalizeHeaders (requestHeaders : RestParams) : Option (Str × Str) :=
  if requestHeaders ≠ [] then
    let headers := requestHeaders.map (fun h => (lowercase h.1, trim h.2))
    let headers := sortParams headers
    let acc := headers.foldl
      (fun (acc : Str × Str) h =>
        (acc.1 ++ (h.1 ++ lit ":" ++ h.2 ++ newline), acc.2 ++ (h.1 ++ lit ";")))
      ([], [])
    (eraseTail acc.2 1).map (fun signedHeaders => (acc.1, signedHeaders))
  else
    some ([], [])

/-- The block of `addSignatureV4` that computes `canonicalQueryParams` from
`request.queryParams`. -/
def canonicalizeQueryParams (charSigned : Bool) (requestQueryParams : RestParams) :
    Option Str :=
  if requestQueryParams ≠ [] then
    let queryParams := sortParams requestQueryParams
    let canonicalQueryParams := queryParams.foldl
      (fun (acc : Str) h =>
        acc ++ (uriEncode charSigned h.1 ++ lit "=" ++ uriEncode charSigned h.2 ++ lit "&"))
      []
    eraseTail canonicalQueryParams 1
  else
    some []

/-- The local variables of a run of `addSignatureV4` and the request it
leaves. -/
structure SignatureV4 where
  canonicalHeaders : Str
  signedHeaders : Str
  canonicalQueryParams : Str
  payloadHash : Str
  canonicalRequest : Str
  credentialScope : Str
  hashedCanonicalRequest : Str
  stringToSign : Str
  signature : Str
  authHeader : Str
  request : BasicRequest
deriving DecidableEq

/-- The lambda `addParam` of `addSignatureV4`:
`authHeader += key + "=" + value + ", "`. -/
def addParam (authHeader key value : Str) : Str :=
  authHeader ++ (key ++ lit "=" ++ value ++ lit ", ")

/-- The body of `AwsApi::addSignatureV4`, statement by statement. `dateStr` is
`now.print("%Y%m%dT%H%M%SZ")`. The result is `none` when an exception is
thrown. -/
def signatureV4 (P : Platform) (request : BasicRequest)
    (service region accessKeyId accessKey dateStr : Str) : Option SignatureV4 :=
  let request : BasicRequest :=
    { request with headers := request.headers ++ [(lit "X-Amz-Date", dateStr)] }
  match canonicalizeHeaders request.headers with
  | none => none
  | some (canonicalHeaders, signedHeaders) =>
    match canonicalizeQueryParams P.charSigned request.queryParams with
    | none => none
    | some canonicalQueryParams =>
      let payloadHash := hexEncodeDigest (sha256Digest P request.payload)
      let canonicalRequest :=
        request.method ++ newline
          ++ (if request.relativeUri = [] then lit "/" else request.relativeUri) ++ newline
          ++ canonicalQueryParams ++ newline
          ++ canonicalHeaders ++ newline
          ++ signedHeaders ++ newline
          ++ payloadHash
      let authHeader := lit "AWS4-HMAC-SHA256 "
      let credentialScope :=
        dateStr.take 8 ++ lit "/" ++ region ++ lit "/" ++ service ++ lit "/" ++ lit "aws4_request"
      let authHeader := addParam authHeader (lit "Credential") (accessKeyId ++ lit "/" ++ credentialScope)
      let authHeader := addParam authHeader (lit "SignedHeaders") signedHeaders
      let hashedCanonicalRequest := hexEncodeDigest (sha256Digest P canonicalRequest)
      let stringToSign :=
        lit "AWS4-HMAC-SHA256" ++ newline
          ++ dateStr ++ newline
          ++ credentialScope ++ newline
          ++ hashedCanonicalRequest
      let signature :=
        signV4 P stringToSign accessKey (dateStr.take 8) region service defaultSigning
      let authHeader := addParam authHeader (lit "Signature") signature
      match eraseTail authHeader 2 with
      | none => none
      | some authHeader =>
        some
          { canonicalHeaders := canonicalHeaders
            signedHeaders := signedHeaders
            canonicalQueryParams := canonicalQueryParams
            payloadHash := payloadHash
            canonicalRequest := canonicalRequest
            credentialScope := credentialScope
            hashedCanonicalRequest := hashedCanonicalRequest
            stringToSign := stringToSign
            signature := signature
            authHeader := authHeader
            request :=
              { request with headers := request.headers ++ [(lit "Authorization", authHeader)] } }

/-- `AwsApi::addSignatureV4`: the request after the call, `none` when an
exception is thrown. -/
def addSignatureV4 (P : Platform) (request : BasicRequest)
    (service region accessKeyId accessKey dateStr : Str) : Option BasicRequest :=
  (signatureV4 P request service region accessKeyId accessKey dateStr).map (fun r => r.request)

/-! ## Definitions that follow the specification -/

/-- The specification's escape `%XX` of a byte: a percent sign and the two
uppercase hexadecimal digits of its value, zero-padded. -/
def percentXX (b : Byte) : Str :=
  [37, hexDigitUpper (b.val / 16), hexDigitUpper (b.val % 16)]

/-- An ASCII letter or digit (`A-Z`, `a-z`, `0-9`). -/
def isAlnum (b : Byte) : Bool :=
  (48 ≤ b.val && b.val ≤ 57) || (65 ≤ b.val && b.val ≤ 90) || (97 ≤ b.val && b.val ≤ 122)

/-- The specification's pass-through set: alphanumerics and `- _ . ~`. -/
def isUnreserved (b : Byte) : Bool :=
  isAlnum b || b.val == 45 || b.val == 95 || b.val == 46 || b.val == 126

/-- An uppercase hexadecimal digit (`0-9`, `A-F`). -/
def isHexUpper (b : Byte) : Bool :=
  (48 ≤ b.val && b.val ≤ 57) || (65 ≤ b.val && b.val ≤ 70)

/-- The bytes the loop of `uriEncode` copies: the specification's pass-through
set and the nine printable bytes that have no `case` label in the `switch`:
double quote (34), `<` (60), `>` (62), backslash (92), `^` (94), grave accent
(96), opening brace (123), `|` (124), closing brace (125). -/
def passesThrough (b : Byte) : Bool :=
  isUnreserved b || b.val ∈ [34, 60, 62, 92, 94, 96, 123, 124, 125]

/-- Reads a string from the left as a sequence of pass-through bytes and of
escapes made of a percent sign and two uppercase hexadecimal digits; `pending`
is the number of digits the escape being read still lacks. -/
def escapedFormAux (pass : Byte → Bool) : (pending : Nat) → Str → Bool
  | 0, [] => true
  | _ + 1, [] => false
  | 0, b :: rest =>
    if b.val = 37 then escapedFormAux pass 2 rest
    else pass b && escapedFormAux pass 0 rest
  | n + 1, b :: rest => isHexUpper b && escapedFormAux pass n rest

/-- Every byte of the string is a byte of the set `pass` or belongs to a `%XX`
escape. -/
def escapedForm (pass : Byte → Bool) (s : Str) : Bool := escapedFormAux pass 0 s

/-- The specification's join: the elements with the separator between
consecutive ones, none before the first or after the last. -/
def joinWith (sep : Str) : List Str → Str
  | [] => []
  | [x] => x
  | x :: y :: rest => x ++ sep ++ joinWith sep (y :: rest)

/-- The specification's order of pairs, "by key then value": the key is
smaller, or the keys are equal and the value is not larger. -/
def keyThenValueLe (x y : Str × Str) : Prop :=
  strLt x.1 y.1 = true ∨ (x.1 = y.1 ∧ strLt y.2 x.2 = false)

instance keyThenValueLe.decidable : DecidableRel keyThenValueLe := fun x y =>
  inferInstanceAs (Decidable (strLt x.1 y.1 = true ∨ (x.1 = y.1 ∧ strLt y.2 x.2 = false)))

/-- The specification's "sort the pairs lexicographically by key then
value". -/
def sortByKeyThenValue (v : RestParams) : RestParams := v.insertionSort keyThenValueLe

/-- The specification's header normalization: lowercase each key, trim each
value, sort the pairs. -/
def normalizeHeaders (headers : RestParams) : RestParams :=
  sortByKeyThenValue (headers.map (fun h => (lowercase h.1, trim h.2)))

/-- The specification's `canonicalHeaders`: `key:value\n` for every normalized
header, in sorted order. -/
def canonicalHeadersSpec (headers : RestParams) : Str :=
  (normalizeHeaders headers).flatMap (fun h => h.1 ++ lit ":" ++ h.2 ++ newline)

/-- The specification's `signedHeaders`: the sorted lowercased keys joined with
a semicolon. -/
def signedHeadersSpec (headers : RestParams) : Str :=
  joinWith (lit ";") ((normalizeHeaders headers).map (fun h => h.1))

/-- The specification's canonical query string: the sorted pairs, each as
`uriEncode(key)=uriEncode(value)`, joined with an ampersand. -/
def canonicalQuerySpec (charSigned : Bool) (queryParams : RestParams) : Str :=
  joinWith (lit "&")
    ((sortByKeyThenValue queryParams).map
      (fun h => uriEncode charSigned h.1 ++ lit "=" ++ uriEncode charSigned h.2))

/-- The other case of an ASCII letter; any other byte itself. -/
def otherCase (b : Byte) : Byte :=
  if 65 ≤ b.val ∧ b.val ≤ 90 then Fin.ofNat (b.val + 32)
  else if 97 ≤ b.val ∧ b.val ≤ 122 then Fin.ofNat (b.val - 32)
  else b

/-- Two strings that differ only in ASCII letter case: the same length and, at
each position, the same byte or the two cases of one letter. -/
def sameUpToCase : Str → Str → Bool
  | [], [] => true
  | x :: xs, y :: ys => (x == y || y == otherCase x) && sameUpToCase xs ys
  | _, _ => false

/-- Two strings that differ only in leading and trailing whitespace: a common
core between runs of whitespace. -/
def sameUpToOuterSpace (a b : Str) : Prop :=
  ∃ core l₁ r₁ l₂ r₂ : Str,
    (∀ x ∈ l₁ ++ r₁ ++ l₂ ++ r₂, isSpace x = true)
      ∧ a = l₁ ++ core ++ r₁ ∧ b = l₂ ++ core ++ r₂

/-- The request of the specification's end-to-end vector: `GET /`, no query
parameters, the single header `Host: examplebucket.s3.amazonaws.com`, empty
payload. -/
def vectorRequest : BasicRequest where
  method := lit "GET"
  relativeUri := lit "/"
  queryParams := []
  headers := [(lit "Host", lit "examplebucket.s3.amazonaws.com")]
  payload := []

/-- A request with two headers and two query parameters, for evaluating the
program. -/
def sampleRequest : BasicRequest where
  method := lit "GET"
  relativeUri := []
  queryParams := [(lit "b", lit "2"), (lit "a", lit "1 /")]
  headers := [(lit "Host", lit "example.com"), (lit "Accept", lit " text/plain ")]
  payload := lit "body"

/-- The request `sampleRequest` with its headers and its query parameters in
the other order. -/
def sampleRequestSwapped : BasicRequest where
  method := lit "GET"
  relativeUri := []
  queryParams := [(lit "a", lit "1 /"), (lit "b", lit "2")]
  headers := [(lit "Accept", lit " text/plain "), (lit "Host", lit "example.com")]
  payload := lit "body"

/-- The lowercase hexadecimal digit of a value below 16 (`0-9`, `a-f`). -/
def hexDigitLower (d : Nat) : Byte :=
  if d < 10 then Fin.ofNat (48 + d) else Fin.ofNat (87 + d)

/-- A lowercase hexadecimal digit (`0-9`, `a-f`). -/
def isHexLower (b : Byte) : Bool :=
  (48 ≤ b.val && b.val ≤ 57) || (97 ≤ b.val && b.val ≤ 102)

/-- The specification's `hexEncode`: the two lowercase hexadecimal digits of
every byte, for a byte string of any length. -/
def hexEncodeSpec (bytes : Str) : Str :=
  bytes.flatMap (fun b => [hexDigitLower (b.val / 16), hexDigitLower (b.val % 16)])

/-- The first 32 bytes of a string followed by zeros: a stand-in of the length
of a SHA-256 digest. -/
def pad32 (s : Str) : Str := (s ++ List.replicate 32 0).take 32

/-- A platform whose hash stand-ins return 32 bytes, as SHA-256 and
HMAC-SHA256 do. -/
def digestPlatform : Platform where
  charSigned := true
  hmacSha256 := fun key data => pad32 (key ++ data)
  sha256 := fun data => pad32 data

/-- The value of an uppercase hexadecimal digit. -/
def hexValue (c : Byte) : Nat :=
  if c.val < 58 then c.val - 48 else c.val - 55

/-- The local variable `headers` of `addSignatureV4` after `std::sort`: the
request's headers with lowercased keys and trimmed values, sorted. -/
def sortedHeaders (requestHeaders : RestParams) : RestParams :=
  sortParams (requestHeaders.map (fun h => (lowercase h.1, trim h.2)))

/-- A string without an uppercase ASCII letter. -/
def isLowercased (s : Str) : Bool := s.all (fun b => !(65 ≤ b.val && b.val ≤ 90))

/-- A string that neither begins nor ends with whitespace. -/
def isTrimmed (s : Str) : Bool :=
  (match s.head? with
    | some b => !isSpace b
    | none => true)
  && (match s.getLast? with
    | some b => !isSpace b
    | none => true)

/-- A request with an empty method and no header, for evaluating the
program. -/
def emptyMethodRequest : BasicRequest where
  method := []
  relativeUri := lit "/"
  queryParams := []
  headers := []
  payload := []

/-- A platform for evaluating the program on concrete inputs: signed `char`
as on x86-64 and stand-ins for the hash primitives (any functions do: the
theorems quantify over the platform). -/
def testPlatform : Platform where
  charSigned := true
  hmacSha256 := fun key data => key ++ data
  sha256 := fun data => data

/-! ## The registry of `service/fs_utils.cc` -/

/-- The file-scope `registry` of `fs_utils.cc`, a
`std::map<string, std::unique_ptr<const UrlFsHandler>>`: the handler bound to
a scheme, if any. `H` is the type of the handler pointers. -/
abbrev Registry (H : Type) := Str → Option H

/-- The outcome of a call: the value returned, or the message of the
`ML::Exception` thrown. -/
abbrev Outcome (α : Type) := Except Str α

/-- `findFsHandler`: the handler bound to the scheme, an exception when there
is none; returned with the registry after the call. -/
def findFsHandler {H : Type} (registry : Registry H) (scheme : Str) :
    Outcome H × Registry H :=
  match registry scheme with
  | none => (Except.error (lit "no handler found for scheme: " ++ scheme), registry)
  | some handler => (Except.ok handler, registry)

/-- `registerUrlFsHandler`: throws when the scheme has a binding; otherwise
(after `url_util::AddStandardScheme`, which does not touch the registry)
`registry[scheme].reset(handler)` binds the scheme to the handler. Returned
with the registry after the call. -/
def registerUrlFsHandler {H : Type} (registry : Registry H) (scheme : Str) (handler : H) :
    Outcome Unit × Registry H :=
  if (registry scheme).isSome then
    (Except.error (lit "fs handler already registered"), registry)
  else
    (Except.ok (), Function.update registry scheme (some handler))

/-- The registry after a sequence of calls of `registerUrlFsHandler`, whether
they throw or not. -/
def registerAll {H : Type} (registry : Registry H) (calls : List (Str × H)) : Registry H :=
  calls.foldl (fun reg call => (registerUrlFsHandler reg call.1 call.2).2) registry

/-- The outcomes of `n` successive calls of `findFsHandler` for one scheme,
and the registry after them. -/
def findRepeatedly {H : Type} (registry : Registry H) (scheme : Str) :
    Nat → List (Outcome H) × Registry H
  | 0 => ([], registry)
  | n + 1 =>
    let first := findFsHandler registry scheme
    let others := findRepeatedly first.2 scheme n
    (first.1 :: others.1, others.2)

/-! ## Theorems: `uriEncode` -/

theorem foldl_append_flatMap {α : Type} (f : α → Str) (l : List α) (init : Str) :
    l.foldl (fun acc x => acc ++ f x) init = init ++ l.flatMap f := by
  induction l generalizing init with
  | nil => simp
  | cons x xs ih => simp [List.foldl_cons, ih, List.flatMap_cons, List.append_assoc]

/-- The loop of `uriEncode` concatenates the pieces of the bytes. -/
theorem uriEncode_eq_flatMap (cs : Bool) (s : Str) :
    uriEncode cs s = s.flatMap (uriEncodeChar cs) := by
  unfold uriEncode
  rw [foldl_append_flatMap (uriEncodeChar cs) s []]
  simp

theorem uriEncode_nil (cs : Bool) : uriEncode cs [] = [] := rfl

theorem uriEncode_cons (cs : Bool) (b : Byte) (s : Str) :
    uriEncode cs (b :: s) = uriEncodeChar cs b ++ uriEncode cs s := by
  simp [uriEncode_eq_flatMap, List.flatMap_cons]

theorem uriEncode_append (cs : Bool) (s t : Str) :
    uriEncode cs (s ++ t) = uriEncode cs s ++ uriEncode cs t := by
  simp [uriEncode_eq_flatMap, List.flatMap_append]

set_option maxRecDepth 1000000 in
/-- What the loop appends for one byte, when `char` is unsigned or the byte is
below `0x80`: the byte itself when it passes through, its `%XX` otherwise. -/
theorem uriEncodeChar_of_unsigned_or_ascii :
    ∀ (cs : Bool) (b : Byte), cs = false ∨ b.val < 128 →
      uriEncodeChar cs b = if passesThrough b = true then [b] else percentXX b := by
  decide

set_option maxRecDepth 1000000 in
theorem uriEncodeChar_unreserved :
    ∀ (cs : Bool) (b : Byte), isUnreserved b = true → uriEncodeChar cs b = [b] := by
  decide

set_option maxRecDepth 1000000 in
/-- With an unsigned `char` every byte of the specification's encoded set gets
its `%XX`. -/
theorem uriEncode_escape_unsigned :
    ∀ b : Byte, b.val ≤ 32 ∨ 127 ≤ b.val ∨ charValue false b ∈ switchCases →
      uriEncode false [b] = percentXX b := by
  decide

set_option maxRecDepth 1000000 in
/-- With a signed `char` the bytes of the specification's encoded set that are
below `0x80` get their `%XX`. -/
theorem uriEncode_escape_signed_ascii :
    ∀ b : Byte, b.val < 128 → b.val ≤ 32 ∨ 127 ≤ b.val ∨ charValue true b ∈ switchCases →
      uriEncode true [b] = percentXX b := by
  decide

set_option maxRecDepth 1000000 in
/-- With a signed `char` every byte from `0x80` on is encoded in nine
characters: the percent sign, `FFFFFF` and the two digits of the byte. -/
theorem uriEncode_high_signed :
    ∀ b : Byte, 128 ≤ b.val →
      uriEncode true [b] = lit "%FFFFFF" ++ (percentXX b).drop 1 := by
  decide

/-- C1 (the code departs from the claim): with the signed `char` of x86-64 the
one-byte string `0xE9` is encoded as the nine characters `%FFFFFFE9`, not as
the three characters `%E9` of the rule "percent sign and two uppercase
hexadecimal digits". -/
theorem uriEncode_E9_signed :
    uriEncode true [233] = lit "%FFFFFFE9" ∧ percentXX 233 = lit "%E9"
      ∧ uriEncode true [233] ≠ percentXX 233 := by
  decide

/-- C2: a string made only of `A-Z`, `a-z`, `0-9` and `- _ . ~` is returned
unchanged by `uriEncode`. -/
theorem uriEncode_unreserved (cs : Bool) (s : Str)
    (h : ∀ b ∈ s, isUnreserved b = true) : uriEncode cs s = s := by
  induction s with
  | nil => rfl
  | cons b s ih =>
    rw [uriEncode_cons, uriEncodeChar_unreserved cs b (h b (List.mem_cons_self b s)),
      ih (fun x hx => h x (List.mem_cons_of_mem b hx))]
    rfl

set_option maxRecDepth 100000 in
theorem uriEncode_unreserved_witness :
    (∀ b ∈ lit "Az09-_.~", isUnreserved b = true)
      ∧ uriEncode true (lit "Az09-_.~") = lit "Az09-_.~" :=
  ⟨by decide, uriEncode_unreserved true (lit "Az09-_.~") (by decide)⟩

theorem uriEncode_eq_passesThrough (cs : Bool) (s : Str)
    (h : ∀ b ∈ s, cs = false ∨ b.val < 128) :
    uriEncode cs s = s.flatMap (fun b => if passesThrough b = true then [b] else percentXX b) := by
  induction s with
  | nil => rfl
  | cons b s ih =>
    rw [uriEncode_cons, ih (fun x hx => h x (List.mem_cons_of_mem b hx)),
      uriEncodeChar_of_unsigned_or_ascii cs b (h b (List.mem_cons_self b s)),
      List.flatMap_cons]

set_option maxRecDepth 1000000 in
theorem passesThrough_ne_percent : ∀ b : Byte, passesThrough b = true → b.val ≠ 37 := by
  decide

set_option maxRecDepth 1000000 in
theorem percentXX_digits : ∀ b : Byte,
    isHexUpper (hexDigitUpper (b.val / 16)) = true
      ∧ isHexUpper (hexDigitUpper (b.val % 16)) = true := by
  decide

theorem escapedFormAux_piece (b : Byte) (rest : Str) :
    escapedFormAux passesThrough 0
        ((if passesThrough b = true then [b] else percentXX b) ++ rest)
      = escapedFormAux passesThrough 0 rest := by
  by_cases hp : passesThrough b = true
  · have h37 := passesThrough_ne_percent b hp
    simp [hp, escapedFormAux, h37]
  · have hd := percentXX_digits b
    have hstep : ∀ (x y : Byte) (r : Str),
        escapedFormAux passesThrough 0 ((37 : Byte) :: x :: y :: r)
          = (isHexUpper x && (isHexUpper y && escapedFormAux passesThrough 0 r)) :=
      fun _ _ _ => rfl
    simp only [hp, percentXX, if_false, Bool.false_eq_true, List.cons_append, List.nil_append]
    rw [hstep, hd.1, hd.2]
    simp

theorem escapedForm_flatMap (s : Str) :
    escapedForm passesThrough
      (s.flatMap (fun b => if passesThrough b = true then [b] else percentXX b)) = true := by
  unfold escapedForm
  induction s with
  | nil => rfl
  | cons b s ih => rw [List.flatMap_cons, escapedFormAux_piece, ih]

/-- C3 (the claim as stated fails): the double quote (byte 34) is neither an
alphanumeric nor one of `- _ . ~`, and `uriEncode` returns it unchanged, so the
output is not made of unreserved bytes and `%XX` escapes only. -/
theorem uriEncode_quote_unchanged :
    isUnreserved 34 = false
      ∧ uriEncode false [34] = [34] ∧ uriEncode true [34] = [34]
      ∧ escapedForm isUnreserved (uriEncode false [34]) = false
      ∧ escapedForm isUnreserved (uriEncode true [34]) = false := by
  decide

/-- C3 (amended): for a string whose bytes are below `0x80`, or any string when
`char` is unsigned, `uriEncode` copies exactly the alphanumerics, `- _ . ~` and
the nine bytes 34, 60, 62, 92, 94, 96, 123, 124, 125, and replaces every other
byte by its `%XX`; every byte of the output is one of the copied bytes or
belongs to a `%XX` escape. -/
theorem uriEncode_escapedForm (cs : Bool) (s : Str)
    (h : ∀ b ∈ s, cs = false ∨ b.val < 128) :
    uriEncode cs s
        = s.flatMap (fun b => if passesThrough b = true then [b] else percentXX b)
      ∧ escapedForm passesThrough (uriEncode cs s) = true := by
  have h1 := uriEncode_eq_passesThrough cs s h
  refine ⟨h1, ?_⟩
  rw [h1]
  exact escapedForm_flatMap s

set_option maxRecDepth 100000 in
theorem uriEncode_escapedForm_witness :
    (∀ b ∈ lit "a b/c<d", true = false ∨ b.val < 128)
      ∧ (uriEncode true (lit "a b/c<d")
          = (lit "a b/c<d").flatMap
              (fun b => if passesThrough b = true then [b] else percentXX b)
        ∧ escapedForm passesThrough (uriEncode true (lit "a b/c<d")) = true) :=
  ⟨by decide, uriEncode_escapedForm true (lit "a b/c<d") (by decide)⟩

/-! ## Theorems: the order of strings and pairs, `std::sort` -/

theorem strLt_irrefl (a : Str) : strLt a a = false := by
  induction a with
  | nil => rfl
  | cons x xs ih => simp [strLt, ih]

theorem strLt_trans : ∀ (a b c : Str), strLt a b = true → strLt b c = true → strLt a c = true
  | _, [], _, h, _ => by cases ‹Str› <;> simp [strLt] at h
  | _, _ :: _, [], _, h => by simp [strLt] at h
  | [], _ :: _, _ :: _, _, _ => by simp [strLt]
  | x :: xs, y :: ys, z :: zs, h1, h2 => by
    simp only [strLt, Bool.or_eq_true, Bool.and_eq_true, decide_eq_true_eq] at h1 h2 ⊢
    rcases h1 with h1 | ⟨h1, h1r⟩
    · rcases h2 with h2 | ⟨h2, _⟩
      · exact Or.inl (lt_trans h1 h2)
      · exact Or.inl (h2 ▸ h1)
    · rcases h2 with h2 | ⟨h2, h2r⟩
      · exact Or.inl (h1 ▸ h2)
      · exact Or.inr ⟨h1.trans h2, strLt_trans xs ys zs h1r h2r⟩

theorem strLt_connex : ∀ (a b : Str), strLt a b = false → strLt b a = false → a = b
  | [], [], _, _ => rfl
  | [], _ :: _, h, _ => by simp [strLt] at h
  | _ :: _, [], _, h => by simp [strLt] at h
  | x :: xs, y :: ys, h1, h2 => by
    simp only [strLt, Bool.or_eq_false_iff, Bool.and_eq_false_imp, decide_eq_false_iff_not,
      decide_eq_true_eq] at h1 h2
    have hxy : x = y := le_antisymm (not_lt.mp h2.1) (not_lt.mp h1.1)
    rw [hxy, strLt_connex xs ys (h1.2 hxy) (h2.2 hxy.symm)]

theorem strLt_asymm (a b : Str) (h : strLt a b = true) : strLt b a = false := by
  cases hb : strLt b a with
  | false => rfl
  | true =>
    have := strLt_trans a b a h hb
    rw [strLt_irrefl] at this
    exact absurd this (by simp)

/-- The comparison of pairs, spelled out: the first key is smaller, or the
keys are equal and the second value is not smaller than the first. -/
theorem pairLe_iff (x y : Str × Str) :
    pairLe x y ↔ strLt x.1 y.1 = true ∨ (x.1 = y.1 ∧ strLt y.2 x.2 = false) := by
  unfold pairLe pairLt
  constructor
  · intro h
    simp only [Bool.or_eq_false_iff, Bool.and_eq_false_imp, Bool.not_eq_true',
      ] at h
    cases hxy : strLt x.1 y.1 with
    | true => exact Or.inl rfl
    | false => exact Or.inr ⟨strLt_connex _ _ hxy h.1, h.2 hxy⟩
  · rintro (h | ⟨h1, h2⟩)
    · simp [strLt_asymm _ _ h, h]
    · simp [h1, strLt_irrefl, h2]

theorem pairLe_total (x y : Str × Str) : pairLe x y ∨ pairLe y x := by
  rw [pairLe_iff, pairLe_iff]
  cases h1 : strLt x.1 y.1 with
  | true => exact Or.inl (Or.inl rfl)
  | false =>
    cases h2 : strLt y.1 x.1 with
    | true => exact Or.inr (Or.inl rfl)
    | false =>
      have he := strLt_connex _ _ h1 h2
      cases h3 : strLt y.2 x.2 with
      | false => exact Or.inl (Or.inr ⟨he, rfl⟩)
      | true => exact Or.inr (Or.inr ⟨he.symm, strLt_asymm _ _ h3⟩)

theorem strLe_trans (a b c : Str) (h1 : strLt b a = false) (h2 : strLt c b = false) :
    strLt c a = false := by
  cases hca : strLt c a with
  | false => rfl
  | true =>
    cases hab : strLt a b with
    | true => rw [strLt_trans c a b hca hab] at h2; exact absurd h2 (by simp)
    | false =>
      have := strLt_connex a b hab h1
      subst this
      rw [hca] at h2; exact absurd h2 (by simp)

theorem pairLe_trans (x y z : Str × Str) (h1 : pairLe x y) (h2 : pairLe y z) : pairLe x z := by
  rw [pairLe_iff] at h1 h2 ⊢
  rcases h1 with h1 | ⟨h1, h1r⟩
  · rcases h2 with h2 | ⟨h2, _⟩
    · exact Or.inl (strLt_trans _ _ _ h1 h2)
    · exact Or.inl (h2 ▸ h1)
  · rcases h2 with h2 | ⟨h2, h2r⟩
    · exact Or.inl (h1 ▸ h2)
    · exact Or.inr ⟨h1.trans h2, strLe_trans _ _ _ h1r h2r⟩

theorem pairLe_antisymm (x y : Str × Str) (h1 : pairLe x y) (h2 : pairLe y x) : x = y := by
  rw [pairLe_iff] at h1 h2
  rcases h1 with h1 | ⟨h1, h1r⟩
  · rcases h2 with h2 | ⟨h2, _⟩
    · rw [strLt_asymm _ _ h1] at h2; exact absurd h2 (by simp)
    · rw [h2, strLt_irrefl] at h1; exact absurd h1 (by simp)
  · rcases h2 with h2 | ⟨_, h2r⟩
    · rw [h1, strLt_irrefl] at h2; exact absurd h2 (by simp)
    · exact Prod.ext h1 (strLt_connex _ _ h2r h1r)

theorem sortParams_perm (v : RestParams) : (sortParams v).Perm v :=
  List.perm_insertionSort pairLe v

theorem sortParams_sorted (v : RestParams) : (sortParams v).Sorted pairLe :=
  haveI : IsTotal (Str × Str) pairLe := ⟨pairLe_total⟩
  haveI : IsTrans (Str × Str) pairLe := ⟨pairLe_trans⟩
  List.sorted_insertionSort pairLe v

/-- The sorted arrangement of a vector of pairs is unique: whatever `std::sort`
does, it returns `sortParams v`. -/
theorem sortParams_unique (v w : RestParams) (hp : w.Perm v) (hs : w.Sorted pairLe) :
    w = sortParams v :=
  haveI : IsAntisymm (Str × Str) pairLe := ⟨pairLe_antisymm⟩
  List.eq_of_perm_of_sorted (hp.trans (sortParams_perm v).symm) hs (sortParams_sorted v)

theorem sortParams_congr (v w : RestParams) (hp : v.Perm w) : sortParams v = sortParams w :=
  sortParams_unique w (sortParams v) ((sortParams_perm v).trans hp) (sortParams_sorted v)

theorem sortParams_eq_nil (v : RestParams) : sortParams v = [] ↔ v = [] := by
  constructor
  · intro h
    have := (sortParams_perm v).length_eq
    rw [h] at this
    exact List.length_eq_zero.mp this.symm
  · intro h; subst h; rfl

/-! ## Theorems: separators and joins -/

theorem sortByKeyThenValue_eq (v : RestParams) : sortByKeyThenValue v = sortParams v := by
  haveI : IsTotal (Str × Str) keyThenValueLe :=
    ⟨fun x y => by
      have := pairLe_total x y
      rwa [pairLe_iff, pairLe_iff] at this⟩
  haveI : IsTrans (Str × Str) keyThenValueLe :=
    ⟨fun x y z h1 h2 => by
      have := pairLe_trans x y z ((pairLe_iff x y).mpr h1) ((pairLe_iff y z).mpr h2)
      rwa [pairLe_iff] at this⟩
  apply sortParams_unique
  · exact List.perm_insertionSort keyThenValueLe v
  · exact (List.sorted_insertionSort keyThenValueLe v).imp (fun h => (pairLe_iff _ _).mpr h)

/-- The reference sort returns the elements of its argument arranged by key
then value. -/
theorem sortByKeyThenValue_sorted_perm (v : RestParams) :
    (sortByKeyThenValue v).Perm v ∧ (sortByKeyThenValue v).Sorted keyThenValueLe := by
  rw [sortByKeyThenValue_eq]
  exact ⟨sortParams_perm v, (sortParams_sorted v).imp (fun h => (pairLe_iff _ _).mp h)⟩

theorem foldl_pair_append {α : Type} (f g : α → Str) (l : List α) (a b : Str) :
    l.foldl (fun (acc : Str × Str) x => (acc.1 ++ f x, acc.2 ++ g x)) (a, b)
      = (a ++ l.flatMap f, b ++ l.flatMap g) := by
  induction l generalizing a b with
  | nil => simp
  | cons x xs ih => simp [List.foldl_cons, ih, List.flatMap_cons, List.append_assoc]

theorem flatMap_sep_eq_joinWith (sep : Str) :
    ∀ (l : List Str), l ≠ [] → l.flatMap (fun x => x ++ sep) = joinWith sep l ++ sep
  | [], h => absurd rfl h
  | [x], _ => by simp [joinWith]
  | x :: y :: rest, _ => by
    rw [List.flatMap_cons, flatMap_sep_eq_joinWith sep (y :: rest) (List.cons_ne_nil y rest)]
    simp [joinWith, List.append_assoc]

theorem eraseTail_append (a t : Str) : eraseTail (a ++ t) t.length = some a := by
  simp [eraseTail, List.length_append]

theorem eraseTail_flatMap_sep {α : Type} (f : α → Str) (sep : Str) (l : List α) (h : l ≠ []) :
    eraseTail (l.flatMap (fun x => f x ++ sep)) sep.length = some (joinWith sep (l.map f)) := by
  have h1 : l.flatMap (fun x => f x ++ sep) = (l.map f).flatMap (fun x => x ++ sep) := by
    simp [List.flatMap_def, List.map_map, Function.comp_def]
  rw [h1, flatMap_sep_eq_joinWith sep (l.map f) (by simpa using h)]
  exact eraseTail_append _ _

/-- The header block of `addSignatureV4` never throws and computes the
specification's `canonicalHeaders` and `signedHeaders`. -/
theorem canonicalizeHeaders_eq (hs : RestParams) :
    canonicalizeHeaders hs = some (canonicalHeadersSpec hs, signedHeadersSpec hs) := by
  unfold canonicalizeHeaders canonicalHeadersSpec signedHeadersSpec normalizeHeaders
  rw [sortByKeyThenValue_eq]
  by_cases h : hs = []
  · subst h; rfl
  · rw [if_pos h]
    simp only []
    rw [foldl_pair_append]
    have hne : sortParams (hs.map (fun h => (lowercase h.1, trim h.2))) ≠ [] := by
      rw [Ne, sortParams_eq_nil]; simpa using h
    have := eraseTail_flatMap_sep (fun h : Str × Str => h.1) (lit ";") _ hne
    simp only [List.nil_append]
    rw [show (1 : Nat) = (lit ";").length from rfl, this]
    rfl

/-- The query block of `addSignatureV4` never throws and computes the
specification's canonical query string. -/
theorem canonicalizeQueryParams_eq (cs : Bool) (qs : RestParams) :
    canonicalizeQueryParams cs qs = some (canonicalQuerySpec cs qs) := by
  unfold canonicalizeQueryParams canonicalQuerySpec
  rw [sortByKeyThenValue_eq]
  by_cases h : qs = []
  · subst h; rfl
  · rw [if_pos h]
    simp only []
    rw [foldl_append_flatMap]
    have hne : sortParams qs ≠ [] := by
      rw [Ne, sortParams_eq_nil]; exact h
    have := eraseTail_flatMap_sep
      (fun h : Str × Str => uriEncode cs h.1 ++ lit "=" ++ uriEncode cs h.2) (lit "&") _ hne
    simp only [List.nil_append]
    rw [show (1 : Nat) = (lit "&").length from rfl, this]

/-! ## Theorems: `addSignatureV4` -/

theorem eraseTail_addParam (authHeader key value : Str) :
    eraseTail (addParam authHeader key value) 2
      = some (authHeader ++ key ++ lit "=" ++ value) := by
  have h : addParam authHeader key value
      = (authHeader ++ key ++ lit "=" ++ value) ++ lit ", " := by
    simp [addParam, List.append_assoc]
  rw [h, show (2 : Nat) = (lit ", ").length from rfl]
  exact eraseTail_append _ _

/-- A run of `addSignatureV4` never throws, and the value of each of its local
variables. -/
theorem signatureV4_run (P : Platform) (request : BasicRequest)
    (service region accessKeyId accessKey dateStr : Str) :
    ∃ r, signatureV4 P request service region accessKeyId accessKey dateStr = some r
      ∧ r.canonicalHeaders
          = canonicalHeadersSpec (request.headers ++ [(lit "X-Amz-Date", dateStr)])
      ∧ r.signedHeaders
          = signedHeadersSpec (request.headers ++ [(lit "X-Amz-Date", dateStr)])
      ∧ r.canonicalQueryParams = canonicalQuerySpec P.charSigned request.queryParams
      ∧ r.payloadHash = hexEncodeDigest (sha256Digest P request.payload)
      ∧ r.canonicalRequest
          = request.method ++ newline
            ++ (if request.relativeUri = [] then lit "/" else request.relativeUri) ++ newline
            ++ r.canonicalQueryParams ++ newline
            ++ r.canonicalHeaders ++ newline
            ++ r.signedHeaders ++ newline
            ++ r.payloadHash
      ∧ r.credentialScope
          = dateStr.take 8 ++ lit "/" ++ region ++ lit "/" ++ service ++ lit "/"
            ++ lit "aws4_request"
      ∧ r.hashedCanonicalRequest = hexEncodeDigest (sha256Digest P r.canonicalRequest)
      ∧ r.stringToSign
          = lit "AWS4-HMAC-SHA256" ++ newline ++ dateStr ++ newline
            ++ r.credentialScope ++ newline ++ r.hashedCanonicalRequest
      ∧ r.signature
          = signV4 P r.stringToSign accessKey (dateStr.take 8) region service defaultSigning
      ∧ r.authHeader
          = addParam (addParam (lit "AWS4-HMAC-SHA256 ") (lit "Credential")
                (accessKeyId ++ lit "/" ++ r.credentialScope))
              (lit "SignedHeaders") r.signedHeaders
            ++ lit "Signature" ++ lit "=" ++ r.signature
      ∧ r.request
          = { request with
              headers := request.headers ++ [(lit "X-Amz-Date", dateStr)]
                ++ [(lit "Authorization", r.authHeader)] } := by
  unfold signatureV4
  simp only [canonicalizeHeaders_eq, canonicalizeQueryParams_eq, eraseTail_addParam]
  exact ⟨_, rfl, rfl, rfl, rfl, rfl, rfl, rfl, rfl, rfl, rfl, rfl, rfl⟩

theorem normalizeHeaders_perm (hs₁ hs₂ : RestParams) (h : hs₁.Perm hs₂) :
    normalizeHeaders hs₁ = normalizeHeaders hs₂ := by
  unfold normalizeHeaders
  rw [sortByKeyThenValue_eq, sortByKeyThenValue_eq]
  exact sortParams_congr _ _ (h.map _)

theorem canonicalQuerySpec_perm (cs : Bool) (qs₁ qs₂ : RestParams) (h : qs₁.Perm qs₂) :
    canonicalQuerySpec cs qs₁ = canonicalQuerySpec cs qs₂ := by
  unfold canonicalQuerySpec
  rw [sortByKeyThenValue_eq, sortByKeyThenValue_eq, sortParams_congr _ _ h]

/-- Two runs of `addSignatureV4` on requests with the same method, URI and
payload whose headers normalize to the same list and whose query strings are
the same compute the same strings. -/
theorem signatureV4_congr (P : Platform) (r₁ r₂ : BasicRequest)
    (service region accessKeyId accessKey dateStr : Str)
    (hm : r₁.method = r₂.method) (hu : r₁.relativeUri = r₂.relativeUri)
    (hp : r₁.payload = r₂.payload)
    (hh : normalizeHeaders (r₁.headers ++ [(lit "X-Amz-Date", dateStr)])
      = normalizeHeaders (r₂.headers ++ [(lit "X-Amz-Date", dateStr)]))
    (hq : canonicalQuerySpec P.charSigned r₁.queryParams
      = canonicalQuerySpec P.charSigned r₂.queryParams) :
    ∃ s₁ s₂,
      signatureV4 P r₁ service region accessKeyId accessKey dateStr = some s₁
        ∧ signatureV4 P r₂ service region accessKeyId accessKey dateStr = some s₂
        ∧ s₁.canonicalHeaders = s₂.canonicalHeaders
        ∧ s₁.signedHeaders = s₂.signedHeaders
        ∧ s₁.canonicalRequest = s₂.canonicalRequest
        ∧ s₁.signature = s₂.signature
        ∧ s₁.authHeader = s₂.authHeader
        ∧ s₁.request.headers
            = r₁.headers ++ [(lit "X-Amz-Date", dateStr), (lit "Authorization", s₁.authHeader)]
        ∧ s₂.request.headers
            = r₂.headers ++ [(lit "X-Amz-Date", dateStr), (lit "Authorization", s₂.authHeader)] := by
  obtain ⟨s₁, e₁, a1, a2, a3, a4, a5, a6, a7, a8, a9, a10, a11⟩ :=
    signatureV4_run P r₁ service region accessKeyId accessKey dateStr
  obtain ⟨s₂, e₂, b1, b2, b3, b4, b5, b6, b7, b8, b9, b10, b11⟩ :=
    signatureV4_run P r₂ service region accessKeyId accessKey dateStr
  have c1 : s₁.canonicalHeaders = s₂.canonicalHeaders := by
    rw [a1, b1, canonicalHeadersSpec, canonicalHeadersSpec, hh]
  have c2 : s₁.signedHeaders = s₂.signedHeaders := by
    rw [a2, b2, signedHeadersSpec, signedHeadersSpec, hh]
  have c3 : s₁.canonicalQueryParams = s₂.canonicalQueryParams := by rw [a3, b3, hq]
  have c4 : s₁.payloadHash = s₂.payloadHash := by rw [a4, b4, hp]
  have c5 : s₁.canonicalRequest = s₂.canonicalRequest := by
    rw [a5, b5, c1, c2, c3, c4, hm, hu]
  have c6 : s₁.credentialScope = s₂.credentialScope := by rw [a6, b6]
  have c7 : s₁.hashedCanonicalRequest = s₂.hashedCanonicalRequest := by rw [a7, b7, c5]
  have c8 : s₁.stringToSign = s₂.stringToSign := by rw [a8, b8, c6, c7]
  have c9 : s₁.signature = s₂.signature := by rw [a9, b9, c8]
  have c10 : s₁.authHeader = s₂.authHeader := by rw [a10, b10, c6, c2, c9]
  refine ⟨s₁, s₂, e₁, e₂, c1, c2, c5, c9, c10, ?_, ?_⟩
  · rw [a11]; simp
  · rw [b11]; simp

set_option maxRecDepth 1000000 in
theorem tolower_otherCase : ∀ b : Byte, tolower (otherCase b) = tolower b := by
  decide

theorem lowercase_eq_of_sameUpToCase :
    ∀ (a b : Str), sameUpToCase a b = true → lowercase a = lowercase b
  | [], [], _ => rfl
  | [], _ :: _, h => by simp [sameUpToCase] at h
  | _ :: _, [], h => by simp [sameUpToCase] at h
  | x :: xs, y :: ys, h => by
    simp only [sameUpToCase, Bool.and_eq_true, Bool.or_eq_true, beq_iff_eq] at h
    have ih := lowercase_eq_of_sameUpToCase xs ys h.2
    have hxy : tolower x = tolower y := by
      rcases h.1 with h1 | h1
      · rw [h1]
      · rw [h1, tolower_otherCase]
    unfold lowercase at ih ⊢
    simp only [List.map_cons, hxy, ih]

theorem dropWhile_append_of_all (p : Byte → Bool) (l s : Str) (h : ∀ x ∈ l, p x = true) :
    (l ++ s).dropWhile p = s.dropWhile p := by
  induction l with
  | nil => rfl
  | cons x xs ih =>
    have hx := h x (List.mem_cons_self x xs)
    simp only [List.cons_append, List.dropWhile_cons, hx, if_true]
    exact ih (fun y hy => h y (List.mem_cons_of_mem x hy))

theorem dropWhile_append_cases (p : Byte → Bool) (a b : Str) :
    (a ++ b).dropWhile p
      = if a.dropWhile p = [] then b.dropWhile p else a.dropWhile p ++ b := by
  induction a with
  | nil => simp
  | cons x xs ih =>
    by_cases hx : p x = true
    · simp only [List.cons_append, List.dropWhile_cons, hx, if_true]
      exact ih
    · simp [List.dropWhile_cons, hx]

theorem trimRight_append_space (s r : Str) (h : ∀ x ∈ r, isSpace x = true) :
    trimRight (s ++ r) = trimRight s := by
  unfold trimRight
  rw [List.reverse_append, dropWhile_append_of_all isSpace r.reverse s.reverse
    (fun x hx => h x (List.mem_reverse.mp hx))]

theorem trim_space_append (l s : Str) (h : ∀ x ∈ l, isSpace x = true) :
    trim (l ++ s) = trim s := by
  unfold trim trimRight
  rw [List.reverse_append, dropWhile_append_cases]
  by_cases hs : s.reverse.dropWhile isSpace = []
  · rw [if_pos hs, hs]
    have : l.reverse.dropWhile isSpace = [] := by
      have := dropWhile_append_of_all isSpace l.reverse [] (fun x hx => h x (List.mem_reverse.mp hx))
      simpa using this
    rw [this]
  · rw [if_neg hs, List.reverse_append, List.reverse_reverse]
    exact dropWhile_append_of_all isSpace l _ h

theorem trim_eq_of_sameUpToOuterSpace (a b : Str) (h : sameUpToOuterSpace a b) :
    trim a = trim b := by
  obtain ⟨core, l₁, r₁, l₂, r₂, hsp, ha, hb⟩ := h
  have h1 : ∀ x ∈ l₁, isSpace x = true := fun x hx => hsp x (by simp [hx])
  have h2 : ∀ x ∈ r₁, isSpace x = true := fun x hx => hsp x (by simp [hx])
  have h3 : ∀ x ∈ l₂, isSpace x = true := fun x hx => hsp x (by simp [hx])
  have h4 : ∀ x ∈ r₂, isSpace x = true := fun x hx => hsp x (by simp [hx])
  have e1 : trim a = trim core := by
    rw [ha, List.append_assoc, trim_space_append _ _ h1]
    unfold trim
    rw [trimRight_append_space _ _ h2]
  have e2 : trim b = trim core := by
    rw [hb, List.append_assoc, trim_space_append _ _ h3]
    unfold trim
    rw [trimRight_append_space _ _ h4]
  rw [e1, e2]

/-- What `boost::trim` does: it removes a run of whitespace at each end and
nothing else, and what is left neither begins nor ends with whitespace. -/
theorem trim_spec (s : Str) :
    (∃ l r : Str, (∀ x ∈ l, isSpace x = true) ∧ (∀ x ∈ r, isSpace x = true)
        ∧ s = l ++ trim s ++ r)
      ∧ (∀ x, (trim s).head? = some x → isSpace x = false)
      ∧ (∀ x, (trim s).getLast? = some x → isSpace x = false) := by
  have hR : s = trimRight s ++ (s.reverse.takeWhile isSpace).reverse := by
    unfold trimRight
    rw [← List.reverse_append, List.takeWhile_append_dropWhile, List.reverse_reverse]
  have hL : trimRight s = (trimRight s).takeWhile isSpace ++ trim s := by
    unfold trim trimLeft
    rw [List.takeWhile_append_dropWhile]
  refine ⟨⟨(trimRight s).takeWhile isSpace, (s.reverse.takeWhile isSpace).reverse, ?_, ?_, ?_⟩,
    ?_, ?_⟩
  · intro x hx; exact List.mem_takeWhile_imp hx
  · intro x hx; exact List.mem_takeWhile_imp (List.mem_reverse.mp hx)
  · rw [← hL]; exact hR
  · intro x hx
    have := List.head?_dropWhile_not isSpace (trimRight s)
    unfold trim trimLeft at hx
    rw [hx] at this
    simpa using this
  · intro x hx
    have hsuf : (trim s) <:+ trimRight s := List.dropWhile_suffix isSpace
    have hne : trim s ≠ [] := by
      intro h; rw [h] at hx; simp at hx
    obtain ⟨t, ht⟩ := hsuf
    have hlast : (trimRight s).getLast? = some x := by
      rw [← ht, List.getLast?_append_of_ne_nil _ hne, hx]
    unfold trimRight at hlast
    rw [List.getLast?_reverse] at hlast
    have := List.head?_dropWhile_not isSpace s.reverse
    rw [hlast] at this
    simpa using this

/-! ## Theorems: the claims on `addSignatureV4` and `signingKeyV4` -/

/-- C4: for every request and timestamp, `addSignatureV4` does not throw and
its `canonicalHeaders` and `signedHeaders` are those of the reference
definition applied to the header list with `X-Amz-Date` appended: lowercase
each key, trim each value, sort the pairs by key then value; concatenate
`key:value\n` over the sorted list; join the sorted keys with `;`. -/
theorem signatureV4_headers_eq_spec (P : Platform) (request : BasicRequest)
    (service region accessKeyId accessKey dateStr : Str) :
    ∃ r, signatureV4 P request service region accessKeyId accessKey dateStr = some r
      ∧ r.canonicalHeaders
          = ((sortByKeyThenValue
                ((request.headers ++ [(lit "X-Amz-Date", dateStr)]).map
                  (fun h => (lowercase h.1, trim h.2)))).flatMap
              (fun h => h.1 ++ lit ":" ++ h.2 ++ newline))
      ∧ r.signedHeaders
          = joinWith (lit ";")
              ((sortByKeyThenValue
                  ((request.headers ++ [(lit "X-Amz-Date", dateStr)]).map
                    (fun h => (lowercase h.1, trim h.2)))).map (fun h => h.1)) := by
  obtain ⟨r, e, a1, a2, _⟩ :=
    signatureV4_run P request service region accessKeyId accessKey dateStr
  exact ⟨r, e, a1, a2⟩

/-- C5: for every query-parameter list the canonical query string of
`addSignatureV4` (append `&` after every pair, then erase the last character)
is the reference join: the pairs sorted by key then value, each mapped to
`uriEncode(key)=uriEncode(value)`, joined with `&`; it is empty for the empty
list; the block computing it never throws. -/
theorem signatureV4_query_eq_spec (P : Platform) (request : BasicRequest)
    (service region accessKeyId accessKey dateStr : Str) :
    (∃ r, signatureV4 P request service region accessKeyId accessKey dateStr = some r
      ∧ r.canonicalQueryParams
          = joinWith (lit "&")
              ((sortByKeyThenValue request.queryParams).map
                (fun h => uriEncode P.charSigned h.1 ++ lit "=" ++ uriEncode P.charSigned h.2)))
      ∧ canonicalizeQueryParams P.charSigned request.queryParams
          = some (canonicalQuerySpec P.charSigned request.queryParams)
      ∧ canonicalizeQueryParams P.charSigned [] = some [] := by
  obtain ⟨r, e, _, _, a3, _⟩ :=
    signatureV4_run P request service region accessKeyId accessKey dateStr
  exact ⟨⟨r, e, a3⟩, canonicalizeQueryParams_eq _ _, rfl⟩

/-- C6: two requests with the same method, URI and payload whose header lists
are permutations of each other and whose query-parameter lists are
permutations of each other get, for the same service, region, credentials and
timestamp, the same canonical request, `SignedHeaders`, signature and
`Authorization` value, appended as the last header of both. -/
theorem signatureV4_order_independent (P : Platform) (r₁ r₂ : BasicRequest)
    (service region accessKeyId accessKey dateStr : Str)
    (hm : r₁.method = r₂.method) (hu : r₁.relativeUri = r₂.relativeUri)
    (hp : r₁.payload = r₂.payload)
    (hh : r₁.headers.Perm r₂.headers) (hq : r₁.queryParams.Perm r₂.queryParams) :
    ∃ s₁ s₂,
      signatureV4 P r₁ service region accessKeyId accessKey dateStr = some s₁
        ∧ signatureV4 P r₂ service region accessKeyId accessKey dateStr = some s₂
        ∧ s₁.canonicalRequest = s₂.canonicalRequest
        ∧ s₁.signedHeaders = s₂.signedHeaders
        ∧ s₁.signature = s₂.signature
        ∧ s₁.authHeader = s₂.authHeader
        ∧ s₁.request.headers
            = r₁.headers ++ [(lit "X-Amz-Date", dateStr), (lit "Authorization", s₁.authHeader)]
        ∧ s₂.request.headers
            = r₂.headers ++ [(lit "X-Amz-Date", dateStr), (lit "Authorization", s₁.authHeader)] := by
  obtain ⟨s₁, s₂, e₁, e₂, _, c2, c5, c9, c10, f₁, f₂⟩ :=
    signatureV4_congr P r₁ r₂ service region accessKeyId accessKey dateStr hm hu hp
      (normalizeHeaders_perm _ _ (hh.append_right _))
      (canonicalQuerySpec_perm _ _ _ hq)
  exact ⟨s₁, s₂, e₁, e₂, c5, c2, c9, c10, f₁, c10 ▸ f₂⟩

theorem signatureV4_order_independent_witness :
    sampleRequest.headers.Perm sampleRequestSwapped.headers
      ∧ sampleRequest.queryParams.Perm sampleRequestSwapped.queryParams
      ∧ ∃ s₁ s₂,
        signatureV4 testPlatform sampleRequest (lit "s3") (lit "us-east-1") (lit "id")
            (lit "secret") (lit "20130524T000000Z") = some s₁
          ∧ signatureV4 testPlatform sampleRequestSwapped (lit "s3") (lit "us-east-1") (lit "id")
              (lit "secret") (lit "20130524T000000Z") = some s₂
          ∧ s₁.canonicalRequest = s₂.canonicalRequest
          ∧ s₁.signedHeaders = s₂.signedHeaders
          ∧ s₁.signature = s₂.signature
          ∧ s₁.authHeader = s₂.authHeader
          ∧ s₁.request.headers
              = sampleRequest.headers
                ++ [(lit "X-Amz-Date", lit "20130524T000000Z"),
                    (lit "Authorization", s₁.authHeader)]
          ∧ s₂.request.headers
              = sampleRequestSwapped.headers
                ++ [(lit "X-Amz-Date", lit "20130524T000000Z"),
                    (lit "Authorization", s₁.authHeader)] :=
  ⟨List.Perm.swap _ _ _, List.Perm.swap _ _ _,
    signatureV4_order_independent testPlatform sampleRequest sampleRequestSwapped (lit "s3")
      (lit "us-east-1") (lit "id") (lit "secret") (lit "20130524T000000Z") rfl rfl rfl
      (List.Perm.swap _ _ _) (List.Perm.swap _ _ _)⟩

/-- C7: replacing, in any request, the key of a header by a string that
differs from it only in ASCII letter case and its value by a string that
differs from it only in leading and trailing whitespace leaves
`canonicalHeaders`, `signedHeaders`, the signature and the `Authorization`
value unchanged; the headers `("X-Amz-Date", " foo ")` and
`("x-amz-date", "foo")` both give the canonical line `x-amz-date:foo\n`. -/
theorem signatureV4_case_space_normalization (P : Platform) (request : BasicRequest)
    (pre post : RestParams) (k k' v v' : Str)
    (service region accessKeyId accessKey dateStr : Str)
    (hk : sameUpToCase k k' = true) (hv : sameUpToOuterSpace v v') :
    (∃ s₁ s₂,
      signatureV4 P { request with headers := pre ++ (k, v) :: post }
          service region accessKeyId accessKey dateStr = some s₁
        ∧ signatureV4 P { request with headers := pre ++ (k', v') :: post }
            service region accessKeyId accessKey dateStr = some s₂
        ∧ s₁.canonicalHeaders = s₂.canonicalHeaders
        ∧ s₁.signedHeaders = s₂.signedHeaders
        ∧ s₁.signature = s₂.signature
        ∧ s₁.authHeader = s₂.authHeader)
      ∧ canonicalizeHeaders [(lit "X-Amz-Date", lit " foo ")]
          = some (lit "x-amz-date:foo" ++ newline, lit "x-amz-date")
      ∧ canonicalizeHeaders [(lit "x-amz-date", lit "foo")]
          = some (lit "x-amz-date:foo" ++ newline, lit "x-amz-date") := by
  refine ⟨?_, by decide, by decide⟩
  have hn : normalizeHeaders (pre ++ (k, v) :: post ++ [(lit "X-Amz-Date", dateStr)])
      = normalizeHeaders (pre ++ (k', v') :: post ++ [(lit "X-Amz-Date", dateStr)]) := by
    unfold normalizeHeaders
    simp only [List.map_append, List.map_cons, lowercase_eq_of_sameUpToCase k k' hk,
      trim_eq_of_sameUpToOuterSpace v v' hv]
  obtain ⟨s₁, s₂, e₁, e₂, c1, c2, _, c9, c10, _, _⟩ :=
    signatureV4_congr P { request with headers := pre ++ (k, v) :: post }
      { request with headers := pre ++ (k', v') :: post }
      service region accessKeyId accessKey dateStr rfl rfl rfl hn rfl
  exact ⟨s₁, s₂, e₁, e₂, c1, c2, c9, c10⟩

set_option maxRecDepth 100000 in
theorem signatureV4_case_space_normalization_witness :
    sameUpToCase (lit "X-Amz-Meta") (lit "x-amz-meta") = true
      ∧ sameUpToOuterSpace (lit " foo ") (lit "foo")
      ∧ ((∃ s₁ s₂,
          signatureV4 testPlatform
              { sampleRequest with
                headers := [(lit "Host", lit "h")] ++ (lit "X-Amz-Meta", lit " foo ") :: [] }
              (lit "s3") (lit "us-east-1") (lit "id") (lit "secret") (lit "20130524T000000Z")
            = some s₁
          ∧ signatureV4 testPlatform
              { sampleRequest with
                headers := [(lit "Host", lit "h")] ++ (lit "x-amz-meta", lit "foo") :: [] }
              (lit "s3") (lit "us-east-1") (lit "id") (lit "secret") (lit "20130524T000000Z")
            = some s₂
          ∧ s₁.canonicalHeaders = s₂.canonicalHeaders
          ∧ s₁.signedHeaders = s₂.signedHeaders
          ∧ s₁.signature = s₂.signature
          ∧ s₁.authHeader = s₂.authHeader)
        ∧ canonicalizeHeaders [(lit "X-Amz-Date", lit " foo ")]
            = some (lit "x-amz-date:foo" ++ newline, lit "x-amz-date")
        ∧ canonicalizeHeaders [(lit "x-amz-date", lit "foo")]
            = some (lit "x-amz-date:foo" ++ newline, lit "x-amz-date")) :=
  ⟨by decide,
    ⟨lit "foo", lit " ", lit " ", [], [], by decide, by decide, by decide⟩,
    signatureV4_case_space_normalization testPlatform sampleRequest [(lit "Host", lit "h")] []
      (lit "X-Amz-Meta") (lit "x-amz-meta") (lit " foo ") (lit "foo")
      (lit "s3") (lit "us-east-1") (lit "id") (lit "secret") (lit "20130524T000000Z")
      (by decide) ⟨lit "foo", lit " ", lit " ", [], [], by decide, by decide, by decide⟩⟩

set_option maxRecDepth 100000 in
/-- C8: the `Authorization` value that `addSignatureV4` appends is
`AWS4-HMAC-SHA256 Credential=<accessKeyId>/<first 8 characters of
dateStr>/<region>/<service>/aws4_request, SignedHeaders=<signedHeaders>,
Signature=<signature>`, the three fields in this order and nothing after the
signature; for the vector (`GET /`, no query, the header `Host`, empty payload,
`20130524T000000Z`, `us-east-1`, `s3`) it begins `AWS4-HMAC-SHA256
Credential=<id>/20130524/us-east-1/s3/aws4_request,
SignedHeaders=host;x-amz-date, Signature=`. -/
theorem signatureV4_authHeader (P : Platform) (request : BasicRequest)
    (service region accessKeyId accessKey dateStr : Str) :
    (∃ r, signatureV4 P request service region accessKeyId accessKey dateStr = some r
      ∧ r.authHeader
          = lit "AWS4-HMAC-SHA256 Credential=" ++ accessKeyId ++ lit "/" ++ dateStr.take 8
            ++ lit "/" ++ region ++ lit "/" ++ service
            ++ lit "/aws4_request, SignedHeaders=" ++ r.signedHeaders
            ++ lit ", Signature=" ++ r.signature
      ∧ r.request.headers.getLast? = some (lit "Authorization", r.authHeader))
      ∧ ∃ r, signatureV4 P vectorRequest (lit "s3") (lit "us-east-1") accessKeyId accessKey
            (lit "20130524T000000Z") = some r
          ∧ r.authHeader
            = lit "AWS4-HMAC-SHA256 Credential=" ++ accessKeyId
              ++ lit "/20130524/us-east-1/s3/aws4_request, SignedHeaders=host;x-amz-date, Signature="
              ++ r.signature := by
  have h1 : lit "AWS4-HMAC-SHA256 Credential="
      = lit "AWS4-HMAC-SHA256 " ++ (lit "Credential" ++ lit "=") := by decide
  have h2 : lit "/aws4_request, SignedHeaders="
      = lit "/" ++ (lit "aws4_request" ++ (lit ", " ++ (lit "SignedHeaders" ++ lit "="))) := by
    decide
  have h3 : lit ", Signature=" = lit ", " ++ (lit "Signature" ++ lit "=") := by decide
  have general : ∀ (request : BasicRequest) (service region dateStr : Str),
      ∃ r, signatureV4 P request service region accessKeyId accessKey dateStr = some r
        ∧ r.signedHeaders
            = signedHeadersSpec (request.headers ++ [(lit "X-Amz-Date", dateStr)])
        ∧ r.authHeader
            = lit "AWS4-HMAC-SHA256 Credential=" ++ accessKeyId ++ lit "/" ++ dateStr.take 8
              ++ lit "/" ++ region ++ lit "/" ++ service
              ++ lit "/aws4_request, SignedHeaders=" ++ r.signedHeaders
              ++ lit ", Signature=" ++ r.signature
        ∧ r.request.headers.getLast? = some (lit "Authorization", r.authHeader) := by
    intro request service region dateStr
    obtain ⟨r, e, _, a2, _, _, _, a6, _, _, _, a10, a11⟩ :=
      signatureV4_run P request service region accessKeyId accessKey dateStr
    refine ⟨r, e, a2, ?_, ?_⟩
    · rw [a10, a6, h1, h2, h3]
      simp only [addParam, List.append_assoc]
    · rw [a11]
      simp
  refine ⟨?_, ?_⟩
  · obtain ⟨r, e, _, a, l⟩ := general request service region dateStr
    exact ⟨r, e, a, l⟩
  · obtain ⟨r, e, s, a, _⟩ := general vectorRequest (lit "s3") (lit "us-east-1")
      (lit "20130524T000000Z")
    refine ⟨r, e, ?_⟩
    have hs : signedHeadersSpec
        (vectorRequest.headers ++ [(lit "X-Amz-Date", lit "20130524T000000Z")])
        = lit "host;x-amz-date" := by decide
    have hmid : lit "/" ++ ((lit "20130524T000000Z").take 8 ++ (lit "/" ++ (lit "us-east-1"
        ++ (lit "/" ++ (lit "s3" ++ (lit "/aws4_request, SignedHeaders="
        ++ (lit "host;x-amz-date" ++ lit ", Signature=")))))))
        = lit "/20130524/us-east-1/s3/aws4_request, SignedHeaders=host;x-amz-date, Signature=" := by
      decide
    rw [a, s, hs, ← hmid]
    simp only [List.append_assoc]

/-- C9: `addSignatureV4` does not throw; after the call the header list is the
original one followed by `("X-Amz-Date", dateStr)` and
`("Authorization", authHeader)`, and the method, URI, query parameters and
payload are those of the original request. -/
theorem addSignatureV4_frame (P : Platform) (request : BasicRequest)
    (service region accessKeyId accessKey dateStr : Str) :
    ∃ r request',
      signatureV4 P request service region accessKeyId accessKey dateStr = some r
        ∧ addSignatureV4 P request service region accessKeyId accessKey dateStr = some request'
        ∧ request'.headers
            = request.headers
              ++ [(lit "X-Amz-Date", dateStr), (lit "Authorization", r.authHeader)]
        ∧ request'.method = request.method
        ∧ request'.relativeUri = request.relativeUri
        ∧ request'.queryParams = request.queryParams
        ∧ request'.payload = request.payload := by
  obtain ⟨r, e, _, _, _, _, _, _, _, _, _, _, a11⟩ :=
    signatureV4_run P request service region accessKeyId accessKey dateStr
  refine ⟨r, r.request, e, ?_, ?_, ?_, ?_, ?_, ?_⟩
  · simp [addSignatureV4, e]
  all_goals rw [a11]
  · simp

/-- C10: `signingKeyV4` returns `k4` of the chain `k0 = "AWS4" + secret`,
`k1 = HMAC(key = k0, data = date)`, `k2 = HMAC(key = k1, data = region)`,
`k3 = HMAC(key = k2, data = service)`, `k4 = HMAC(key = k3, data =
terminator)`: each raw output is the key of the next step. -/
theorem signingKeyV4_chain (P : Platform) (secret date region service terminator : Str) :
    ∃ k0 k1 k2 k3 k4 : Str,
      k0 = lit "AWS4" ++ secret
        ∧ k1 = P.hmacSha256 k0 date
        ∧ k2 = P.hmacSha256 k1 region
        ∧ k3 = P.hmacSha256 k2 service
        ∧ k4 = P.hmacSha256 k3 terminator
        ∧ signingKeyV4 P secret date region service terminator = k4 :=
  ⟨_, _, _, _, _, rfl, rfl, rfl, rfl, rfl, rfl⟩

/-! ## Theorems: the digest codec -/

theorem hexEncoder_length (d : Str) : (hexEncoder d).length = 2 * d.length := by
  unfold hexEncoder
  induction d with
  | nil => rfl
  | cons b bs ih => simp only [List.flatMap_cons, List.length_append, ih, List.length_cons,
      List.length_nil]; omega

theorem hexEncodeSpec_length (d : Str) : (hexEncodeSpec d).length = 2 * d.length := by
  unfold hexEncodeSpec
  induction d with
  | nil => rfl
  | cons b bs ih => simp only [List.flatMap_cons, List.length_append, ih, List.length_cons,
      List.length_nil]; omega

set_option maxRecDepth 1000000 in
theorem tolower_hexDigitUpper : ∀ b : Byte,
    tolower (hexDigitUpper (b.val / 16)) = hexDigitLower (b.val / 16)
      ∧ tolower (hexDigitUpper (b.val % 16)) = hexDigitLower (b.val % 16) := by
  decide

set_option maxRecDepth 1000000 in
theorem isHexLower_hexDigitLower : ∀ b : Byte,
    isHexLower (hexDigitLower (b.val / 16)) = true
      ∧ isHexLower (hexDigitLower (b.val % 16)) = true := by
  decide

theorem lowercase_hexEncoder (d : Str) : lowercase (hexEncoder d) = hexEncodeSpec d := by
  unfold lowercase hexEncoder hexEncodeSpec
  induction d with
  | nil => rfl
  | cons b bs ih =>
    simp only [List.flatMap_cons, List.map_append, ih, List.map_cons, List.map_nil,
      (tolower_hexDigitUpper b).1, (tolower_hexDigitUpper b).2]

/-- `hexEncodeDigest` returns the first 256 characters of the lowercase
hexadecimal encoding. -/
theorem hexEncodeDigest_eq_take (d : Str) :
    hexEncodeDigest d = (hexEncodeSpec d).take 256 := by
  unfold hexEncodeDigest encodeDigest
  rw [← lowercase_hexEncoder]
  unfold lowercase
  rw [List.map_take]

/-- Up to 128 bytes `hexEncodeDigest` returns the whole lowercase hexadecimal
encoding. -/
theorem hexEncodeDigest_of_le (d : Str) (h : d.length ≤ 128) :
    hexEncodeDigest d = hexEncodeSpec d := by
  rw [hexEncodeDigest_eq_take]
  apply List.take_of_length_le
  rw [hexEncodeSpec_length]; omega

/-- From 129 bytes on `hexEncodeDigest` returns 256 characters, fewer than the
encoding has. -/
theorem hexEncodeDigest_of_gt (d : Str) (h : 128 < d.length) :
    (hexEncodeDigest d).length = 256 ∧ (hexEncodeDigest d).length < 2 * d.length := by
  rw [hexEncodeDigest_eq_take, List.length_take, hexEncodeSpec_length]
  omega

theorem hexEncodeSpec_isHexLower (d : Str) : ∀ c ∈ hexEncodeSpec d, isHexLower c = true := by
  unfold hexEncodeSpec
  intro c hc
  rw [List.mem_flatMap] at hc
  obtain ⟨b, _, hb⟩ := hc
  simp only [List.mem_cons, List.mem_singleton, List.not_mem_nil, or_false] at hb
  rcases hb with h | h
  · rw [h]; exact (isHexLower_hexDigitLower b).1
  · rw [h]; exact (isHexLower_hexDigitLower b).2

theorem pad32_length (s : Str) : (pad32 s).length = 32 := by
  simp [pad32]

/-- C11: when SHA-256 and HMAC-SHA256 return 32 bytes, the signature of
`addSignatureV4` is `hexEncode(HMAC-SHA256(key = signingKeyV4(secret, first 8
characters of dateStr, region, service, "aws4_request"), data =
stringToSign))`, with `stringToSign = "AWS4-HMAC-SHA256\n" + dateStr + "\n" +
credentialScope + "\n" + hexEncode(SHA256(canonicalRequest))` and
`canonicalRequest = method + "\n" + (relativeUri or "/") + "\n" + query + "\n"
+ canonicalHeaders + "\n" + signedHeaders + "\n" + hexEncode(SHA256(payload))`;
the scope uses the same 8 characters as the key; it is the `Signature` field
of the `Authorization` value; and the requests with `relativeUri` `""` and
`"/"` get the same signature. -/
theorem signatureV4_signature (P : Platform) (request : BasicRequest)
    (service region accessKeyId accessKey dateStr : Str)
    (hH : ∀ key data, (P.hmacSha256 key data).length = 32)
    (hS : ∀ data, (P.sha256 data).length = 32) :
    (∃ r, signatureV4 P request service region accessKeyId accessKey dateStr = some r
      ∧ r.signature
          = hexEncodeSpec
              (P.hmacSha256
                (signingKeyV4 P accessKey (dateStr.take 8) region service (lit "aws4_request"))
                r.stringToSign)
      ∧ r.stringToSign
          = lit "AWS4-HMAC-SHA256" ++ newline ++ dateStr ++ newline
            ++ r.credentialScope ++ newline ++ hexEncodeSpec (P.sha256 r.canonicalRequest)
      ∧ r.credentialScope
          = dateStr.take 8 ++ lit "/" ++ region ++ lit "/" ++ service ++ lit "/"
            ++ lit "aws4_request"
      ∧ r.canonicalRequest
          = request.method ++ newline
            ++ (if request.relativeUri = [] then lit "/" else request.relativeUri) ++ newline
            ++ canonicalQuerySpec P.charSigned request.queryParams ++ newline
            ++ r.canonicalHeaders ++ newline
            ++ r.signedHeaders ++ newline
            ++ hexEncodeSpec (P.sha256 request.payload)
      ∧ (lit ", Signature=" ++ r.signature) <:+ r.authHeader)
      ∧ ∃ r₀ r₁,
          signatureV4 P { request with relativeUri := [] }
              service region accessKeyId accessKey dateStr = some r₀
            ∧ signatureV4 P { request with relativeUri := lit "/" }
                service region accessKeyId accessKey dateStr = some r₁
            ∧ r₀.signature = r₁.signature := by
  have hex32 : ∀ d : Str, d.length = 32 → hexEncodeDigest d = hexEncodeSpec d :=
    fun d hd => hexEncodeDigest_of_le d (by omega)
  constructor
  · obtain ⟨r, e, _, _, a3, a4, a5, a6, a7, a8, a9, a10, _⟩ :=
      signatureV4_run P request service region accessKeyId accessKey dateStr
    refine ⟨r, e, ?_, ?_, a6, ?_, ?_⟩
    · rw [a9]
      exact hex32 _ (hH _ _)
    · rw [a8, a7]
      unfold sha256Digest
      rw [hex32 _ (hS _)]
    · rw [a5, a3, a4]
      unfold sha256Digest
      rw [hex32 _ (hS _)]
    · rw [a10]
      refine ⟨addParam (lit "AWS4-HMAC-SHA256 ") (lit "Credential")
          (accessKeyId ++ lit "/" ++ r.credentialScope)
          ++ lit "SignedHeaders" ++ lit "=" ++ r.signedHeaders, ?_⟩
      have h3 : lit ", Signature=" = lit ", " ++ (lit "Signature" ++ lit "=") := by decide
      rw [h3]
      simp only [addParam, List.append_assoc]
  · obtain ⟨r₀, e₀, a1, a2, a3, a4, a5, a6, a7, a8, a9, _⟩ :=
      signatureV4_run P { request with relativeUri := [] } service region accessKeyId
        accessKey dateStr
    obtain ⟨r₁, e₁, b1, b2, b3, b4, b5, b6, b7, b8, b9, _⟩ :=
      signatureV4_run P { request with relativeUri := lit "/" } service region accessKeyId
        accessKey dateStr
    refine ⟨r₀, r₁, e₀, e₁, ?_⟩
    have hu : (if (lit "/" : Str) = [] then lit "/" else lit "/") = lit "/" := by decide
    have c5 : r₀.canonicalRequest = r₁.canonicalRequest := by
      rw [a5, b5, a1, b1, a2, b2, a3, b3, a4, b4]
      simp only [if_true, hu]
    rw [a9, b9, a8, b8, a7, b7, a6, b6, c5]

theorem signatureV4_signature_witness :
    (∀ key data, (digestPlatform.hmacSha256 key data).length = 32)
      ∧ (∀ data, (digestPlatform.sha256 data).length = 32)
      ∧ ((∃ r, signatureV4 digestPlatform sampleRequest (lit "s3") (lit "us-east-1") (lit "id")
              (lit "secret") (lit "20130524T000000Z") = some r
          ∧ r.signature
              = hexEncodeSpec
                  (digestPlatform.hmacSha256
                    (signingKeyV4 digestPlatform (lit "secret")
                      ((lit "20130524T000000Z").take 8) (lit "us-east-1") (lit "s3")
                      (lit "aws4_request"))
                    r.stringToSign)
          ∧ r.stringToSign
              = lit "AWS4-HMAC-SHA256" ++ newline ++ lit "20130524T000000Z" ++ newline
                ++ r.credentialScope ++ newline
                ++ hexEncodeSpec (digestPlatform.sha256 r.canonicalRequest)
          ∧ r.credentialScope
              = (lit "20130524T000000Z").take 8 ++ lit "/" ++ lit "us-east-1" ++ lit "/"
                ++ lit "s3" ++ lit "/" ++ lit "aws4_request"
          ∧ r.canonicalRequest
              = sampleRequest.method ++ newline
                ++ (if sampleRequest.relativeUri = [] then lit "/" else sampleRequest.relativeUri)
                ++ newline
                ++ canonicalQuerySpec digestPlatform.charSigned sampleRequest.queryParams
                ++ newline
                ++ r.canonicalHeaders ++ newline
                ++ r.signedHeaders ++ newline
                ++ hexEncodeSpec (digestPlatform.sha256 sampleRequest.payload)
          ∧ (lit ", Signature=" ++ r.signature) <:+ r.authHeader)
        ∧ ∃ r₀ r₁,
            signatureV4 digestPlatform { sampleRequest with relativeUri := [] }
                (lit "s3") (lit "us-east-1") (lit "id") (lit "secret")
                (lit "20130524T000000Z") = some r₀
              ∧ signatureV4 digestPlatform { sampleRequest with relativeUri := lit "/" }
                  (lit "s3") (lit "us-east-1") (lit "id") (lit "secret")
                  (lit "20130524T000000Z") = some r₁
              ∧ r₀.signature = r₁.signature) :=
  ⟨fun _ _ => pad32_length _, fun _ => pad32_length _,
    signatureV4_signature digestPlatform sampleRequest (lit "s3") (lit "us-east-1") (lit "id")
      (lit "secret") (lit "20130524T000000Z") (fun _ _ => pad32_length _)
      (fun _ => pad32_length _)⟩

/-- C12: when HMAC-SHA256 returns 32 bytes, `signV4` returns exactly 64
characters, each of them one of `0-9`, `a-f`. -/
theorem signV4_hex64 (P : Platform)
    (stringToSign accessKey date region service signing : Str)
    (hH : ∀ key data, (P.hmacSha256 key data).length = 32) :
    (signV4 P stringToSign accessKey date region service signing).length = 64
      ∧ ∀ c ∈ signV4 P stringToSign accessKey date region service signing,
          isHexLower c = true := by
  have h : signV4 P stringToSign accessKey date region service signing
      = hexEncodeSpec (P.hmacSha256
          (signingKeyV4 P accessKey date region service signing) stringToSign) := by
    unfold signV4 hmacSha256Digest
    exact hexEncodeDigest_of_le _ (by rw [hH]; omega)
  rw [h]
  refine ⟨?_, hexEncodeSpec_isHexLower _⟩
  rw [hexEncodeSpec_length, hH]

theorem signV4_hex64_witness :
    (∀ key data, (digestPlatform.hmacSha256 key data).length = 32)
      ∧ ((signV4 digestPlatform (lit "string to sign") (lit "secret") (lit "20130524")
            (lit "us-east-1") (lit "s3") (lit "aws4_request")).length = 64
        ∧ ∀ c ∈ signV4 digestPlatform (lit "string to sign") (lit "secret") (lit "20130524")
            (lit "us-east-1") (lit "s3") (lit "aws4_request"),
            isHexLower c = true) :=
  ⟨fun _ _ => pad32_length _,
    signV4_hex64 digestPlatform (lit "string to sign") (lit "secret") (lit "20130524")
      (lit "us-east-1") (lit "s3") (lit "aws4_request") (fun _ _ => pad32_length _)⟩

/-- C13 (the code departs from the claim): for a string of 129 bytes the
complete encoding has 258 characters; `hexEncodeDigest` returns, as if it were
the encoding, its first 256 characters only. -/
theorem hexEncodeDigest_truncates :
    (hexEncodeSpec (List.replicate 129 0)).length = 258
      ∧ (hexEncodeDigest (List.replicate 129 0)).length = 256
      ∧ hexEncodeDigest (List.replicate 129 0)
          = (hexEncodeSpec (List.replicate 129 0)).take 256
      ∧ hexEncodeDigest (List.replicate 129 0) ≠ hexEncodeSpec (List.replicate 129 0) := by
  have h1 : (hexEncodeSpec (List.replicate 129 0)).length = 258 := by
    rw [hexEncodeSpec_length, List.length_replicate]
  have h2 := (hexEncodeDigest_of_gt (List.replicate 129 0)
    (by rw [List.length_replicate]; omega)).1
  refine ⟨h1, h2, hexEncodeDigest_eq_take _, ?_⟩
  intro h
  rw [h, h1] at h2
  omega

/-! ## Theorems: `uriEncode` is a prefix-free code -/

set_option maxRecDepth 1000000 in
/-- The three shapes of what the loop of `uriEncode` appends for a byte: the
byte itself, its `%XX`, or, for a byte from `0x80` on held in a signed `char`,
`%FFFFFF` and the two digits. -/
theorem uriEncodeChar_cases :
    ∀ (cs : Bool) (b : Byte),
      (uriEncodeChar cs b = [b] ∧ b.val ≠ 37)
        ∨ (uriEncodeChar cs b = percentXX b ∧ (cs = true → b.val < 128))
        ∨ (cs = true ∧ 128 ≤ b.val
            ∧ uriEncodeChar cs b = 37 :: 70 :: 70 :: 70 :: 70 :: 70 :: 70 :: (percentXX b).drop 1) := by
  decide

set_option maxRecDepth 1000000 in
theorem hexValue_hexDigitUpper : ∀ b : Byte,
    hexValue (hexDigitUpper (b.val / 16)) = b.val / 16
      ∧ hexValue (hexDigitUpper (b.val % 16)) = b.val % 16 := by
  decide

set_option maxRecDepth 1000000 in
theorem hexDigitUpper_high_ne_F : ∀ b : Byte, b.val < 128 → hexDigitUpper (b.val / 16) ≠ 70 := by
  decide

theorem hexDigits_inj (b c : Byte)
    (hh : hexDigitUpper (b.val / 16) = hexDigitUpper (c.val / 16))
    (hl : hexDigitUpper (b.val % 16) = hexDigitUpper (c.val % 16)) : b = c := by
  have h1 := congrArg hexValue hh
  have h2 := congrArg hexValue hl
  rw [(hexValue_hexDigitUpper b).1, (hexValue_hexDigitUpper c).1] at h1
  rw [(hexValue_hexDigitUpper b).2, (hexValue_hexDigitUpper c).2] at h2
  apply Fin.ext
  omega

/-- No piece of the code is a prefix of another: two encodings that agree
begin with the same byte. -/
theorem uriEncodeChar_append_inj (cs : Bool) (b c : Byte) (x y : Str)
    (h : uriEncodeChar cs b ++ x = uriEncodeChar cs c ++ y) : b = c ∧ x = y := by
  rcases uriEncodeChar_cases cs b with ⟨hb, hb'⟩ | ⟨hb, hb'⟩ | ⟨hs, hb', hb⟩ <;>
    rcases uriEncodeChar_cases cs c with ⟨hc, hc'⟩ | ⟨hc, hc'⟩ | ⟨_, hc', hc⟩ <;>
    rw [hb, hc] at h <;>
    simp only [percentXX, List.cons_append, List.nil_append, List.cons.injEq, List.drop_succ_cons,
      List.drop_zero] at h
  · exact ⟨h.1, h.2⟩
  · exact absurd (congrArg Fin.val h.1) hb'
  · exact absurd (congrArg Fin.val h.1) hb'
  · exact absurd (congrArg Fin.val h.1.symm) hc'
  · exact ⟨hexDigits_inj b c h.2.1 h.2.2.1, h.2.2.2⟩
  · exact absurd h.2.1 (hexDigitUpper_high_ne_F b (hb' ‹_›))
  · exact absurd (congrArg Fin.val h.1.symm) hc'
  · exact absurd h.2.1.symm (hexDigitUpper_high_ne_F c (hc' hs))
  · exact ⟨hexDigits_inj b c h.2.2.2.2.2.2.2.1 h.2.2.2.2.2.2.2.2.1, h.2.2.2.2.2.2.2.2.2⟩

theorem uriEncodeChar_ne_nil (cs : Bool) (b : Byte) : uriEncodeChar cs b ≠ [] := by
  rcases uriEncodeChar_cases cs b with ⟨hb, _⟩ | ⟨hb, _⟩ | ⟨_, _, hb⟩ <;> rw [hb] <;> simp [percentXX]

/-- Two strings with the same encoding are equal, by induction with
`uriEncodeChar_append_inj`. -/
theorem uriEncode_inj (cs : Bool) (s t : Str) (h : uriEncode cs s = uriEncode cs t) :
    s = t := by
  induction s generalizing t with
  | nil =>
    cases t with
    | nil => rfl
    | cons c t =>
      rw [uriEncode_nil, uriEncode_cons] at h
      exact absurd (List.append_eq_nil.mp h.symm).1 (uriEncodeChar_ne_nil cs c)
  | cons b s ih =>
    cases t with
    | nil =>
      rw [uriEncode_nil, uriEncode_cons] at h
      exact absurd (List.append_eq_nil.mp h).1 (uriEncodeChar_ne_nil cs b)
    | cons c t =>
      rw [uriEncode_cons, uriEncode_cons] at h
      obtain ⟨hbc, hst⟩ := uriEncodeChar_append_inj cs b c _ _ h
      rw [hbc, ih t hst]

/-- C19: `uriEncode` is injective, whether `char` is signed or not: the
percent sign is always escaped and the pieces appended for the bytes form a
prefix-free code. -/
theorem uriEncode_injective (cs : Bool) (s t : Str) (h : uriEncode cs s = uriEncode cs t) :
    s = t :=
  uriEncode_inj cs s t h

set_option maxRecDepth 100000 in
theorem uriEncode_injective_witness :
    uriEncode true (lit "a b") = uriEncode true (lit "a b") ∧ lit "a b" = lit "a b" :=
  ⟨rfl, uriEncode_injective true (lit "a b") (lit "a b") rfl⟩

theorem length_le_uriEncode (cs : Bool) (s : Str) : s.length ≤ (uriEncode cs s).length := by
  induction s with
  | nil => simp [uriEncode_nil]
  | cons b s ih =>
    rw [uriEncode_cons, List.length_append, List.length_cons]
    have := List.length_pos.mpr (uriEncodeChar_ne_nil cs b)
    omega

theorem uriEncodeChar_eq_self_or_percent (cs : Bool) (b : Byte) :
    (uriEncodeChar cs b = [b] ∧ b.val ≠ 37)
      ∨ ∃ d e rest, uriEncodeChar cs b = 37 :: d :: e :: rest := by
  rcases uriEncodeChar_cases cs b with h | ⟨hb, _⟩ | ⟨_, _, hb⟩
  · exact Or.inl h
  · exact Or.inr ⟨_, _, _, hb⟩
  · exact Or.inr ⟨_, _, _, hb⟩

/-- A string that `uriEncode` returns unchanged has no encoded byte. -/
theorem uriEncodeChar_of_uriEncode_eq_self (cs : Bool) (t : Str) (h : uriEncode cs t = t) :
    ∀ b ∈ t, uriEncodeChar cs b = [b] ∧ b.val ≠ 37 := by
  induction t with
  | nil => intro b hb; cases hb
  | cons c t ih =>
    rw [uriEncode_cons] at h
    rcases uriEncodeChar_eq_self_or_percent cs c with ⟨hc, hc'⟩ | ⟨d, e, rest, hc⟩
    · rw [hc] at h
      have ht : uriEncode cs t = t := by simpa using h
      intro b hb
      rcases List.mem_cons.mp hb with hb | hb
      · rw [hb]; exact ⟨hc, hc'⟩
      · exact ih ht b hb
    · rw [hc] at h
      have hlen := congrArg List.length h
      have := length_le_uriEncode cs t
      simp only [List.cons_append, List.length_cons, List.length_append] at hlen
      omega

theorem uriEncode_eq_self_of_all (cs : Bool) (s : Str)
    (h : ∀ b ∈ s, uriEncodeChar cs b = [b]) : uriEncode cs s = s := by
  induction s with
  | nil => rfl
  | cons b s ih =>
    rw [uriEncode_cons, h b (List.mem_cons_self b s),
      ih (fun x hx => h x (List.mem_cons_of_mem b hx))]
    rfl

/-- When the output of `uriEncode` has no percent sign, no byte was encoded. -/
theorem uriEncodeChar_of_no_percent (cs : Bool) (s : Str) (h : (37 : Byte) ∉ uriEncode cs s) :
    ∀ b ∈ s, uriEncodeChar cs b = [b] := by
  intro b hb
  rcases uriEncodeChar_eq_self_or_percent cs b with ⟨hc, _⟩ | ⟨d, e, rest, hc⟩
  · exact hc
  · exfalso
    apply h
    rw [uriEncode_eq_flatMap, List.mem_flatMap]
    exact ⟨b, hb, by rw [hc]; exact List.mem_cons_self _ _⟩

/-- C14: `uriEncode` is not idempotent: `uriEncode("%") = "%25"` and
`uriEncode("%25") = "%2525"`; for every string, encoding twice gives the same
as encoding once exactly when `uriEncode(s) = s`, that is when no byte of `s`
is percent-encoded. -/
theorem uriEncode_not_idempotent (cs : Bool) :
    uriEncode cs (lit "%") = lit "%25"
      ∧ uriEncode cs (lit "%25") = lit "%2525"
      ∧ uriEncode cs (uriEncode cs (lit "%")) ≠ uriEncode cs (lit "%")
      ∧ ∀ s : Str,
          (uriEncode cs (uriEncode cs s) = uriEncode cs s ↔ uriEncode cs s = s)
            ∧ (uriEncode cs s = s ↔ ∀ b ∈ s, uriEncodeChar cs b = [b]) := by
  refine ⟨by cases cs <;> decide, by cases cs <;> decide, by cases cs <;> decide, ?_⟩
  intro s
  have hiff : uriEncode cs s = s ↔ ∀ b ∈ s, uriEncodeChar cs b = [b] :=
    ⟨fun h b hb => (uriEncodeChar_of_uriEncode_eq_self cs s h b hb).1,
      uriEncode_eq_self_of_all cs s⟩
  refine ⟨⟨fun h => ?_, fun h => by rw [h, h]⟩, hiff⟩
  have hall := uriEncodeChar_of_uriEncode_eq_self cs (uriEncode cs s) h
  have hno : (37 : Byte) ∉ uriEncode cs s := by
    intro hm
    exact (hall 37 hm).2 rfl
  exact uriEncode_eq_self_of_all cs s (uriEncodeChar_of_no_percent cs s hno)

/-! ## Theorems: the canonical query string determines the parameters -/

set_option maxRecDepth 1000000 in
theorem uriEncodeChar_no_separator :
    ∀ (cs : Bool) (b : Byte),
      (61 : Byte) ∉ uriEncodeChar cs b ∧ (38 : Byte) ∉ uriEncodeChar cs b := by
  decide

/-- The output of `uriEncode` contains neither `=` nor `&`. -/
theorem uriEncode_no_separator (cs : Bool) (s : Str) :
    (61 : Byte) ∉ uriEncode cs s ∧ (38 : Byte) ∉ uriEncode cs s := by
  rw [uriEncode_eq_flatMap]
  constructor
  · intro h
    obtain ⟨b, _, hb⟩ := List.mem_flatMap.mp h
    exact (uriEncodeChar_no_separator cs b).1 hb
  · intro h
    obtain ⟨b, _, hb⟩ := List.mem_flatMap.mp h
    exact (uriEncodeChar_no_separator cs b).2 hb

theorem split_unique (c : Byte) :
    ∀ (a b x y : Str), c ∉ a → c ∉ b → a ++ c :: x = b ++ c :: y → a = b ∧ x = y
  | [], [], _, _, _, _, h => ⟨rfl, by simpa using h⟩
  | [], b0 :: b, _, _, _, hb, h => by
    simp only [List.nil_append, List.cons_append, List.cons.injEq] at h
    exact absurd (h.1 ▸ List.mem_cons_self _ _) hb
  | a0 :: a, [], _, _, ha, _, h => by
    simp only [List.nil_append, List.cons_append, List.cons.injEq] at h
    exact absurd (h.1 ▸ List.mem_cons_self _ _) ha
  | a0 :: a, b0 :: b, x, y, ha, hb, h => by
    simp only [List.cons_append, List.cons.injEq] at h
    obtain ⟨hab, hxy⟩ := split_unique c a b x y
      (fun hm => ha (List.mem_cons_of_mem _ hm)) (fun hm => hb (List.mem_cons_of_mem _ hm)) h.2
    exact ⟨by rw [h.1, hab], hxy⟩

/-- One item of the canonical query string: `uriEncode(key)=uriEncode(value)`. -/
theorem queryItem_inj (cs : Bool) (h k : Str × Str)
    (e : uriEncode cs h.1 ++ lit "=" ++ uriEncode cs h.2
      = uriEncode cs k.1 ++ lit "=" ++ uriEncode cs k.2) : h = k := by
  have he : lit "=" = [61] := by decide
  rw [he, List.append_assoc, List.append_assoc] at e
  obtain ⟨h1, h2⟩ := split_unique 61 _ _ _ _ (uriEncode_no_separator cs h.1).1
    (uriEncode_no_separator cs k.1).1 e
  exact Prod.ext (uriEncode_inj cs _ _ h1) (uriEncode_inj cs _ _ h2)

theorem joinWith_cons_cons (sep x y : Str) (rest : List Str) :
    joinWith sep (x :: y :: rest) = x ++ sep ++ joinWith sep (y :: rest) := rfl

theorem joinWith_ne_nil (sep x : Str) (rest : List Str) (hx : x ≠ []) :
    joinWith sep (x :: rest) ≠ [] := by
  cases rest with
  | nil => exact hx
  | cons y rest =>
    rw [joinWith_cons_cons]
    intro h
    exact hx (List.append_eq_nil.mp (List.append_eq_nil.mp h).1).1

/-- A join with a one-byte separator determines its elements when none of them
is empty or contains the separator. -/
theorem joinWith_inj (c : Byte) :
    ∀ (l m : List Str), (∀ x ∈ l, x ≠ [] ∧ c ∉ x) → (∀ x ∈ m, x ≠ [] ∧ c ∉ x) →
      joinWith [c] l = joinWith [c] m → l = m
  | [], [], _, _, _ => rfl
  | [], y :: m, _, hm, h =>
    absurd h.symm (joinWith_ne_nil [c] y m (hm y (List.mem_cons_self _ _)).1)
  | x :: l, [], hl, _, h =>
    absurd h (joinWith_ne_nil [c] x l (hl x (List.mem_cons_self _ _)).1)
  | [x], [y], _, _, h => by
    have : x = y := h
    rw [this]
  | [x], y :: y' :: m, hl, _, h => by
    exfalso
    have hx : x = y ++ [c] ++ joinWith [c] (y' :: m) := h
    apply (hl x (List.mem_cons_self _ _)).2
    rw [hx]
    simp
  | x :: x' :: l, [y], _, hm, h => by
    exfalso
    have hy : x ++ [c] ++ joinWith [c] (x' :: l) = y := h
    apply (hm y (List.mem_cons_self _ _)).2
    rw [← hy]
    simp
  | x :: x' :: l, y :: y' :: m, hl, hm, h => by
    rw [joinWith_cons_cons, joinWith_cons_cons, List.append_assoc, List.append_assoc] at h
    obtain ⟨hxy, hrest⟩ := split_unique c _ _ _ _ (hl x (List.mem_cons_self _ _)).2
      (hm y (List.mem_cons_self _ _)).2 h
    have := joinWith_inj c (x' :: l) (y' :: m)
      (fun z hz => hl z (List.mem_cons_of_mem _ hz))
      (fun z hz => hm z (List.mem_cons_of_mem _ hz)) hrest
    rw [hxy, this]

/-- The reference canonical query string determines the parameters up to their
order. -/
theorem canonicalQuerySpec_eq_iff (cs : Bool) (p q : RestParams) :
    canonicalQuerySpec cs p = canonicalQuerySpec cs q ↔ p.Perm q := by
  constructor
  · intro h
    unfold canonicalQuerySpec at h
    rw [sortByKeyThenValue_eq, sortByKeyThenValue_eq] at h
    have hamp : lit "&" = [38] := by decide
    rw [hamp] at h
    have hitem : ∀ (v : RestParams),
        ∀ x ∈ v.map (fun h => uriEncode cs h.1 ++ lit "=" ++ uriEncode cs h.2),
          x ≠ [] ∧ (38 : Byte) ∉ x := by
      intro v x hx
      obtain ⟨k, _, hk⟩ := List.mem_map.mp hx
      have he : lit "=" = [61] := by decide
      subst hk
      refine ⟨by simp [he], ?_⟩
      rw [he]
      simp only [List.mem_append, List.mem_singleton, not_or]
      exact ⟨⟨(uriEncode_no_separator cs k.1).2, by decide⟩, (uriEncode_no_separator cs k.2).2⟩
    have hmap := joinWith_inj 38 _ _ (hitem (sortParams p)) (hitem (sortParams q)) h
    have hinj : Function.Injective
        (fun h : Str × Str => uriEncode cs h.1 ++ lit "=" ++ uriEncode cs h.2) :=
      fun a b e => queryItem_inj cs a b e
    have hsort : sortParams p = sortParams q := List.map_injective_iff.mpr hinj hmap
    exact (sortParams_perm p).symm.trans (hsort ▸ sortParams_perm q)
  · exact canonicalQuerySpec_perm cs p q

/-- C20: the canonical query strings that `addSignatureV4` computes for two
requests are equal exactly when the query-parameter lists are permutations of
each other; the output of `uriEncode` contains neither `=` nor `&`; the empty
list gives the empty string and the list with one empty pair gives `=`. -/
theorem signatureV4_query_collision_free (P : Platform) (r₁ r₂ : BasicRequest)
    (service region accessKeyId accessKey dateStr : Str) :
    (∃ s₁ s₂,
      signatureV4 P r₁ service region accessKeyId accessKey dateStr = some s₁
        ∧ signatureV4 P r₂ service region accessKeyId accessKey dateStr = some s₂
        ∧ (s₁.canonicalQueryParams = s₂.canonicalQueryParams
            ↔ r₁.queryParams.Perm r₂.queryParams))
      ∧ (canonicalizeQueryParams P.charSigned r₁.queryParams
            = canonicalizeQueryParams P.charSigned r₂.queryParams
          ↔ r₁.queryParams.Perm r₂.queryParams)
      ∧ (∀ s : Str, (61 : Byte) ∉ uriEncode P.charSigned s ∧ (38 : Byte) ∉ uriEncode P.charSigned s)
      ∧ canonicalizeQueryParams P.charSigned [] = some []
      ∧ canonicalizeQueryParams P.charSigned [([], [])] = some (lit "=") := by
  obtain ⟨s₁, e₁, _, _, a3, _⟩ :=
    signatureV4_run P r₁ service region accessKeyId accessKey dateStr
  obtain ⟨s₂, e₂, _, _, b3, _⟩ :=
    signatureV4_run P r₂ service region accessKeyId accessKey dateStr
  have hone : ∀ cs : Bool, canonicalizeQueryParams cs [([], [])] = some (lit "=") := by
    intro cs; cases cs <;> decide
  refine ⟨⟨s₁, s₂, e₁, e₂, ?_⟩, ?_, uriEncode_no_separator P.charSigned, rfl, hone _⟩
  · rw [a3, b3]
    exact canonicalQuerySpec_eq_iff _ _ _
  · rw [canonicalizeQueryParams_eq, canonicalizeQueryParams_eq, Option.some.injEq]
    exact canonicalQuerySpec_eq_iff _ _ _

/-! ## Theorems: the date header, fixed points, degenerate requests -/

theorem dropWhile_eq_self_of_head (p : Byte → Bool) (l : Str)
    (h : ∀ x, l.head? = some x → p x = false) : l.dropWhile p = l := by
  cases l with
  | nil => rfl
  | cons a l =>
    have := h a rfl
    simp [List.dropWhile_cons, this]

theorem trim_eq_self_of_ends (s : Str)
    (hh : ∀ x, s.head? = some x → isSpace x = false)
    (hl : ∀ x, s.getLast? = some x → isSpace x = false) : trim s = s := by
  have hr : trimRight s = s := by
    unfold trimRight
    rw [dropWhile_eq_self_of_head isSpace s.reverse
      (fun x hx => hl x (by rwa [List.head?_reverse] at hx)), List.reverse_reverse]
  unfold trim trimLeft
  rw [hr]
  exact dropWhile_eq_self_of_head isSpace s hh

theorem trim_eq_self_of_no_space (s : Str) (h : ∀ b ∈ s, isSpace b = false) : trim s = s :=
  trim_eq_self_of_ends s (fun x hx => h x (List.mem_of_mem_head? hx))
    (fun x hx => h x (List.mem_of_getLast?_eq_some hx))

theorem trim_trim (s : Str) : trim (trim s) = trim s :=
  trim_eq_self_of_ends (trim s) (trim_spec s).2.1 (trim_spec s).2.2

set_option maxRecDepth 1000000 in
theorem tolower_tolower : ∀ b : Byte, tolower (tolower b) = tolower b := by
  decide

set_option maxRecDepth 1000000 in
theorem tolower_of_not_upper :
    ∀ b : Byte, (!(65 ≤ b.val && b.val ≤ 90)) = true → tolower b = b := by
  decide

theorem lowercase_lowercase (s : Str) : lowercase (lowercase s) = lowercase s := by
  unfold lowercase
  rw [List.map_map]
  exact List.map_congr_left (fun b _ => tolower_tolower b)

theorem lowercase_eq_self_of_isLowercased (s : Str) (h : isLowercased s = true) :
    lowercase s = s := by
  unfold isLowercased at h
  rw [List.all_eq_true] at h
  unfold lowercase
  conv_rhs => rw [← List.map_id s]
  exact List.map_congr_left (fun b hb => tolower_of_not_upper b (h b hb))

theorem trim_eq_self_of_isTrimmed (s : Str) (h : isTrimmed s = true) : trim s = s := by
  unfold isTrimmed at h
  rw [Bool.and_eq_true] at h
  apply trim_eq_self_of_ends
  · intro x hx
    have := h.1
    rw [hx] at this
    simpa using this
  · intro x hx
    have := h.2
    rw [hx] at this
    simpa using this

theorem sortParams_of_sorted (v : RestParams) (h : v.Sorted keyThenValueLe) :
    sortParams v = v :=
  (sortParams_unique v v (List.Perm.refl v) (h.imp (fun h => (pairLe_iff _ _).mpr h))).symm

theorem sortParams_sortParams (v : RestParams) : sortParams (sortParams v) = sortParams v :=
  sortParams_congr _ _ (sortParams_perm v)

theorem sortedHeaders_sortedHeaders (hs : RestParams) :
    sortedHeaders (sortedHeaders hs) = sortedHeaders hs := by
  have hfix : (sortedHeaders hs).map (fun h => (lowercase h.1, trim h.2)) = sortedHeaders hs := by
    conv_rhs => rw [← List.map_id (sortedHeaders hs)]
    apply List.map_congr_left
    intro h hh
    have hmem := (sortParams_perm _).mem_iff.mp hh
    obtain ⟨g, _, hg⟩ := List.mem_map.mp hmem
    rw [← hg]
    simp only [lowercase_lowercase, trim_trim, id]
  unfold sortedHeaders at hfix ⊢
  rw [hfix]
  exact sortParams_sortParams _

theorem canonicalizeHeaders_of_sortedHeaders (hs : RestParams) :
    canonicalizeHeaders (sortedHeaders hs) = canonicalizeHeaders hs := by
  rw [canonicalizeHeaders_eq, canonicalizeHeaders_eq]
  have h : normalizeHeaders (sortedHeaders hs) = normalizeHeaders hs := by
    have e : ∀ v, normalizeHeaders v = sortedHeaders v := fun v => by
      unfold normalizeHeaders sortedHeaders
      exact sortByKeyThenValue_eq _
    rw [e, e, sortedHeaders_sortedHeaders]
  unfold canonicalHeadersSpec signedHeadersSpec
  rw [h]

/-- C16: the header normalization of `addSignatureV4` (lowercase the keys,
trim the values, sort) returns unchanged a list that is already lowercased,
trimmed and sorted, and applying it twice is applying it once; sorting a sorted
query-parameter list leaves it unchanged; so canonicalizing the normalized
headers or the sorted parameters again gives the same `canonicalHeaders`,
`signedHeaders` and canonical query string. -/
theorem canonicalization_fixed_point :
    (∀ l : RestParams,
        (∀ h ∈ l, isLowercased h.1 = true ∧ isTrimmed h.2 = true) →
          l.Sorted keyThenValueLe → sortedHeaders l = l)
      ∧ (∀ hs : RestParams, sortedHeaders (sortedHeaders hs) = sortedHeaders hs)
      ∧ (∀ qs : RestParams, qs.Sorted keyThenValueLe → sortParams qs = qs)
      ∧ (∀ qs : RestParams, sortParams (sortParams qs) = sortParams qs)
      ∧ (∀ hs : RestParams, canonicalizeHeaders (sortedHeaders hs) = canonicalizeHeaders hs)
      ∧ (∀ (cs : Bool) (qs : RestParams),
          canonicalizeQueryParams cs (sortParams qs) = canonicalizeQueryParams cs qs) := by
  refine ⟨?_, sortedHeaders_sortedHeaders, sortParams_of_sorted, sortParams_sortParams,
    canonicalizeHeaders_of_sortedHeaders, ?_⟩
  · intro l hl hs
    unfold sortedHeaders
    have hmap : l.map (fun h => (lowercase h.1, trim h.2)) = l := by
      conv_rhs => rw [← List.map_id l]
      apply List.map_congr_left
      intro h hh
      simp only [lowercase_eq_self_of_isLowercased _ (hl h hh).1,
        trim_eq_self_of_isTrimmed _ (hl h hh).2, id]
    rw [hmap]
    exact sortParams_of_sorted l hs
  · intro cs qs
    rw [canonicalizeQueryParams_eq, canonicalizeQueryParams_eq]
    exact congrArg some (canonicalQuerySpec_perm cs _ _ (sortParams_perm qs))

set_option maxRecDepth 100000 in
theorem canonicalization_fixed_point_witness :
    (∀ h ∈ [(lit "accept", lit "a b"), (lit "host", lit "example.com")],
        isLowercased h.1 = true ∧ isTrimmed h.2 = true)
      ∧ [(lit "accept", lit "a b"), (lit "host", lit "example.com")].Sorted keyThenValueLe
      ∧ sortedHeaders [(lit "accept", lit "a b"), (lit "host", lit "example.com")]
          = [(lit "accept", lit "a b"), (lit "host", lit "example.com")] :=
  ⟨by decide, by decide,
    canonicalization_fixed_point.1
      [(lit "accept", lit "a b"), (lit "host", lit "example.com")] (by decide) (by decide)⟩

theorem joinWith_ne_nil_of_mem (sep x : Str) (hx : x ≠ []) :
    ∀ (l : List Str), x ∈ l → joinWith sep l ≠ []
  | [], h => by cases h
  | [y], h => by
    have : x = y := by simpa using h
    subst this
    exact hx
  | y :: z :: rest, h => by
    intro hj
    have hj' : y ++ sep ++ joinWith sep (z :: rest) = [] := hj
    have h1 := List.append_eq_nil.mp hj'
    have h2 := List.append_eq_nil.mp h1.1
    rcases List.mem_cons.mp h with h | h
    · exact hx (h ▸ h2.1)
    · exact joinWith_ne_nil_of_mem sep x hx (z :: rest) h h1.2

/-- C15: for every request, also one without headers, and every timestamp
(a `dateStr` without whitespace), the header block of `addSignatureV4` runs on
the list that ends with `X-Amz-Date`, which is never empty (the `else` of the
emptiness test is not taken); `x-amz-date` is one of the keys joined into
`signedHeaders`, the line `x-amz-date:<dateStr>\n` is one of the lines of
`canonicalHeaders`, and neither string is empty. -/
theorem signatureV4_date_header (P : Platform) (request : BasicRequest)
    (service region accessKeyId accessKey dateStr : Str)
    (hd : ∀ b ∈ dateStr, isSpace b = false) :
    ∃ r, signatureV4 P request service region accessKeyId accessKey dateStr = some r
      ∧ request.headers ++ [(lit "X-Amz-Date", dateStr)] ≠ []
      ∧ canonicalizeHeaders (request.headers ++ [(lit "X-Amz-Date", dateStr)])
          = some (r.canonicalHeaders, r.signedHeaders)
      ∧ (∃ pre post : RestParams,
          sortedHeaders (request.headers ++ [(lit "X-Amz-Date", dateStr)])
              = pre ++ (lit "x-amz-date", dateStr) :: post
            ∧ r.signedHeaders
              = joinWith (lit ";")
                  (pre.map (fun h => h.1) ++ lit "x-amz-date" :: post.map (fun h => h.1))
            ∧ r.canonicalHeaders
              = pre.flatMap (fun h => h.1 ++ lit ":" ++ h.2 ++ newline)
                ++ (lit "x-amz-date:" ++ dateStr ++ newline)
                ++ post.flatMap (fun h => h.1 ++ lit ":" ++ h.2 ++ newline))
      ∧ r.signedHeaders ≠ [] ∧ r.canonicalHeaders ≠ [] := by
  obtain ⟨r, e, a1, a2, _⟩ :=
    signatureV4_run P request service region accessKeyId accessKey dateStr
  have hn : normalizeHeaders (request.headers ++ [(lit "X-Amz-Date", dateStr)])
      = sortedHeaders (request.headers ++ [(lit "X-Amz-Date", dateStr)]) := by
    unfold normalizeHeaders sortedHeaders
    exact sortByKeyThenValue_eq _
  have hmem : (lit "x-amz-date", dateStr)
      ∈ sortedHeaders (request.headers ++ [(lit "X-Amz-Date", dateStr)]) := by
    unfold sortedHeaders
    rw [(sortParams_perm _).mem_iff, List.mem_map]
    refine ⟨(lit "X-Amz-Date", dateStr), by simp, ?_⟩
    have hk : lowercase (lit "X-Amz-Date") = lit "x-amz-date" := by decide
    simp only [hk, trim_eq_self_of_no_space dateStr hd]
  obtain ⟨pre, post, hsplit⟩ := List.append_of_mem hmem
  have hline : lit "x-amz-date:" = lit "x-amz-date" ++ lit ":" := by decide
  have hkey : lit "x-amz-date" ≠ ([] : Str) := by decide
  have hsh : r.signedHeaders
      = joinWith (lit ";")
          (pre.map (fun h => h.1) ++ lit "x-amz-date" :: post.map (fun h => h.1)) := by
    rw [a2, signedHeadersSpec, hn, hsplit, List.map_append, List.map_cons]
  have hch : r.canonicalHeaders
      = pre.flatMap (fun h => h.1 ++ lit ":" ++ h.2 ++ newline)
        ++ (lit "x-amz-date:" ++ dateStr ++ newline)
        ++ post.flatMap (fun h => h.1 ++ lit ":" ++ h.2 ++ newline) := by
    rw [a1, canonicalHeadersSpec, hn, hsplit, List.flatMap_append, List.flatMap_cons, hline]
    simp only [List.append_assoc]
  refine ⟨r, e, by simp, ?_, ⟨pre, post, hsplit, hsh, hch⟩, ?_, ?_⟩
  · rw [canonicalizeHeaders_eq, a1, a2]
  · rw [hsh]
    exact joinWith_ne_nil_of_mem _ _ hkey _ (by simp)
  · rw [hch, hline]
    simp [hkey]

set_option maxRecDepth 100000 in
theorem signatureV4_date_header_witness :
    (∀ b ∈ lit "20130524T000000Z", isSpace b = false)
      ∧ ∃ r, signatureV4 testPlatform emptyMethodRequest (lit "s3") (lit "us-east-1") (lit "id")
            (lit "secret") (lit "20130524T000000Z") = some r
        ∧ emptyMethodRequest.headers ++ [(lit "X-Amz-Date", lit "20130524T000000Z")] ≠ []
        ∧ canonicalizeHeaders
              (emptyMethodRequest.headers ++ [(lit "X-Amz-Date", lit "20130524T000000Z")])
            = some (r.canonicalHeaders, r.signedHeaders)
        ∧ (∃ pre post : RestParams,
            sortedHeaders
                (emptyMethodRequest.headers ++ [(lit "X-Amz-Date", lit "20130524T000000Z")])
                = pre ++ (lit "x-amz-date", lit "20130524T000000Z") :: post
              ∧ r.signedHeaders
                = joinWith (lit ";")
                    (pre.map (fun h => h.1) ++ lit "x-amz-date" :: post.map (fun h => h.1))
              ∧ r.canonicalHeaders
                = pre.flatMap (fun h => h.1 ++ lit ":" ++ h.2 ++ newline)
                  ++ (lit "x-amz-date:" ++ lit "20130524T000000Z" ++ newline)
                  ++ post.flatMap (fun h => h.1 ++ lit ":" ++ h.2 ++ newline))
        ∧ r.signedHeaders ≠ [] ∧ r.canonicalHeaders ≠ [] :=
  ⟨by decide,
    signatureV4_date_header testPlatform emptyMethodRequest (lit "s3") (lit "us-east-1")
      (lit "id") (lit "secret") (lit "20130524T000000Z") (by decide)⟩

theorem findFsHandler_registry {H : Type} (registry : Registry H) (scheme : Str) :
    (findFsHandler registry scheme).2 = registry := by
  unfold findFsHandler
  cases registry scheme <;> rfl

theorem findRepeatedly_of_bound {H : Type} (registry : Registry H) (scheme : Str) (h : H)
    (hb : registry scheme = some h) (n : Nat) :
    findRepeatedly registry scheme n = (List.replicate n (Except.ok h), registry) := by
  induction n with
  | zero => rfl
  | succ n ih =>
    have hf : findFsHandler registry scheme = (Except.ok h, registry) := by
      unfold findFsHandler; rw [hb]
    simp only [findRepeatedly, hf, ih, List.replicate_succ]

theorem registerAll_unbound {H : Type} (calls : List (Str × H)) :
    ∀ (registry : Registry H) (scheme : Str), registry scheme = none →
      (∀ c ∈ calls, c.1 ≠ scheme) → registerAll registry calls scheme = none := by
  induction calls with
  | nil => intro registry scheme h _; exact h
  | cons c calls ih =>
    intro registry scheme h hc
    unfold registerAll
    rw [List.foldl_cons]
    apply ih
    · unfold registerUrlFsHandler
      have hne : scheme ≠ c.1 := fun e => hc c (List.mem_cons_self _ _) e.symm
      split
      · exact h
      · simp only [Function.update_noteq hne, h]
    · exact fun d hd => hc d (List.mem_cons_of_mem _ hd)

/-- C18: `registerUrlFsHandler` throws and leaves the registry unchanged when
the scheme has a binding; otherwise it binds the scheme to the handler and
leaves every other binding unchanged, after which every call of
`findFsHandler` for the scheme returns the handler; `findFsHandler` throws for
a scheme without a binding, in particular one that no call registered, and
never changes the registry. -/
theorem registry_insert_once {H : Type} (registry : Registry H) (scheme : Str) (handler : H) :
    ((registry scheme).isSome = true →
        registerUrlFsHandler registry scheme handler
          = (Except.error (lit "fs handler already registered"), registry))
      ∧ (registry scheme = none →
          ∃ registry',
            registerUrlFsHandler registry scheme handler = (Except.ok (), registry')
              ∧ registry' scheme = some handler
              ∧ (∀ s, s ≠ scheme → registry' s = registry s)
              ∧ ∀ n, findRepeatedly registry' scheme n
                  = (List.replicate n (Except.ok handler), registry'))
      ∧ (registry scheme = none →
          findFsHandler registry scheme
            = (Except.error (lit "no handler found for scheme: " ++ scheme), registry))
      ∧ (∀ calls : List (Str × H), (∀ c ∈ calls, c.1 ≠ scheme) →
          findFsHandler (registerAll (fun _ => none) calls) scheme
            = (Except.error (lit "no handler found for scheme: " ++ scheme),
                registerAll (fun _ => none) calls))
      ∧ ∀ s, (findFsHandler registry s).2 = registry := by
  refine ⟨?_, ?_, ?_, ?_, findFsHandler_registry registry⟩
  · intro h
    unfold registerUrlFsHandler
    rw [if_pos h]
  · intro h
    refine ⟨Function.update registry scheme (some handler), ?_, ?_, ?_, ?_⟩
    · unfold registerUrlFsHandler
      rw [h]
      rfl
    · exact Function.update_same _ _ _
    · intro s hs
      exact Function.update_noteq hs _ _
    · exact findRepeatedly_of_bound _ _ handler (Function.update_same _ _ _)
  · intro h
    unfold findFsHandler
    rw [h]
  · intro calls hc
    have := registerAll_unbound calls (fun _ => none) scheme rfl hc
    unfold findFsHandler
    rw [this]

theorem registry_insert_once_witness :
    (fun _ => none : Registry Nat) (lit "file") = none
      ∧ ∃ registry' : Registry Nat,
          registerUrlFsHandler (fun _ => none) (lit "file") 7 = (Except.ok (), registry')
            ∧ registry' (lit "file") = some 7
            ∧ (∀ s, s ≠ lit "file" → registry' s = (fun _ => none : Registry Nat) s)
            ∧ ∀ n, findRepeatedly registry' (lit "file") n
                = (List.replicate n (Except.ok 7), registry') :=
  ⟨rfl, (registry_insert_once (fun _ => none : Registry Nat) (lit "file") 7).2.1 rfl⟩

end Datacratic
